import Mathlib

set_option linter.unnecessarySeqFocus false
set_option linter.unreachableTactic false
set_option linter.unusedTactic false

/-
Verification of the storm-cmdp core (Consumption MDP algorithms).

The development shallowly embeds the following source files:
  src/storm-cmdp/extended-integer/ExtendedInteger.h / .cpp
  src/storm-cmdp/counter-selector/CounterSelector.h
  src/storm-cmdp/algorithms/algorithms.h / .cpp

Conventions used throughout:
  - C++ machine `int` values are modelled by `Int` (no overflow is modelled;
    all quantities in the algorithms are small non-negative integers).
  - `double` transition probabilities are modelled by `Rat`.
  - Code that throws an exception is modelled either by `Option`
    (`ExtendedInteger.addOpt` for `operator+`) or, when the throwing branch is
    unreachable in the embedded algorithms, by a total function whose value on
    the throwing branch is documented at its definition.
  - The C++ do/while fixpoint loops have no termination guarantee in general
    (for ill-formed inputs they can run forever), so they are embedded with a
    fuel parameter and return `none` when the fuel is exhausted before the
    loop's exit condition holds.  `none` corresponds exactly to those
    executions of the source in which the loop has not terminated within the
    given number of passes.
-/

namespace Storm

/--
Source: ExtendedInteger.h / ExtendedInteger.cpp.
The C++ class stores a pair (mIsInfinite : bool, value : int).  Its public
constructors are `ExtendedInteger(int)` (finite values, mIsInfinite = false)
and the static `infinity()` which uses the private bool constructor and
always sets value = 1; `operator-` multiplies the stored value by -1.
Consequently every constructible infinite object has value 1 or value -1,
and `operator==` identifies infinite objects with equal sign.  The embedding
therefore represents a finite value by `fin v` and an infinite value by
`inf positive` where `positive` records the sign bit (value = 1 vs value = -1).
-/
inductive ExtendedInteger where
  | fin (value : Int)
  | inf (positive : Bool)
deriving DecidableEq

namespace ExtendedInteger

/-- Source: `isFinite()`. -/
def isFinite : ExtendedInteger → Bool
  | fin _ => true
  | inf _ => false

/-- Source: `isInfinite()`. -/
def isInfinite : ExtendedInteger → Bool
  | fin _ => false
  | inf _ => true

/-- Source: `sign()`: -1, 0 or 1 according to the stored `value` field.
For an infinite object the stored value is 1 or -1 (see the type's docstring),
so the sign of `inf b` is 1 when b and -1 otherwise. -/
def sign : ExtendedInteger → Int
  | fin v => if v > 0 then 1 else if v < 0 then -1 else 0
  | inf b => if b then 1 else -1

/-- The literal `value` field of the C++ object: the integer for finite
values, and 1 or -1 for the two constructible infinite objects.
`getValue()` returns this field for finite values and throws
`std::range_error` for infinite ones; call sites in the embedded algorithms
only reach the finite case, and the throwing branch is modelled by
returning the stored field. -/
def getValueRaw : ExtendedInteger → Int
  | fin v => v
  | inf b => if b then 1 else -1

/-- Source: static `infinity()`; the private bool constructor sets value = 1. -/
def infinity : ExtendedInteger := inf true

/-- Source: `operator<`.  When both operands are finite, compare the stored
integers; otherwise the result is false when the LHS is +infinity or the RHS
is -infinity, and true in the remaining cases.  (For an infinite operand,
`value > 0` / `value < 0` is exactly its sign bit.) -/
def lt : ExtendedInteger → ExtendedInteger → Bool
  | fin v, fin w => v < w
  | a, b => if (a.isInfinite && a.sign > 0) || (b.isInfinite && b.sign < 0)
            then false else true

/-- Source: `operator>`: `rhs < lhs`. -/
def gt (a b : ExtendedInteger) : Bool := lt b a

/-- Source: `operator<=`: `!(lhs > rhs)`. -/
def le (a b : ExtendedInteger) : Bool := !(gt a b)

/-- Source: `operator>=`: `!(lhs < rhs)`. -/
def ge (a b : ExtendedInteger) : Bool := !(lt a b)

/-- Source: unary `operator-`: multiplies the stored value by -1 (for the
infinite objects this flips the sign bit). -/
def neg : ExtendedInteger → ExtendedInteger
  | fin v => fin (-v)
  | inf b => inf (!b)

/-- Source: free `operator+` in ExtendedInteger.cpp.  Returns `none` exactly
where the C++ code throws `std::invalid_argument` (both operands infinite
with different sign); otherwise `some` of the result: the integer sum when
both are finite, else the infinite operand (the LHS if it is infinite). -/
def addOpt (lhs rhs : ExtendedInteger) : Option ExtendedInteger :=
  match lhs, rhs with
  | fin v, fin w => some (fin (v + w))
  | a, b =>
    if a.isInfinite && b.isInfinite && a.sign ≠ b.sign then none
    else if a.isInfinite then some a else some b

/-- Total version of `operator+` used by the embedded algorithms.  On the
branch where the C++ code throws (`(+infinity) + (-infinity)`) it returns
`infinity`; claim C6 shows that branch is never taken by the core
computations, so the choice of value there is immaterial. -/
def add (lhs rhs : ExtendedInteger) : ExtendedInteger :=
  (addOpt lhs rhs).getD infinity

/-- `std::max` as used in `maxOfSos`: `max(a, b)` is `b` when `a < b`
and `a` otherwise. -/
def maxE (a b : ExtendedInteger) : ExtendedInteger := if a.lt b then b else a

/-- Modelled from the spec: "A default-constructed value is +infinity"
(spec section 3).  The class declaration in
src/storm-cmdp/extended-integer/ExtendedInteger.h does not itself show a
default constructor, although `overSuccessors` (algorithms.cpp line 44)
default-constructs its accumulator and `computeSafe` default-constructs a
whole vector, so the constructor's body is taken from the spec's words. -/
def defaultConstructed : ExtendedInteger := inf true

end ExtendedInteger

open ExtendedInteger

/--
The CMDP view used by the algorithms (spec section 4.B): a sparse MDP with
`numStates` states, a uniform action count `numActions`
(`getNumberOfChoices(0)` in the source), the sparse transition row
`row s a` (the entries of `getTransitionMatrix().getRow(s, a)`, as pairs of
successor state and probability), the action cost `cost s a` (the reward
model named "cost"), and the two label predicates.  The action argument of
`row` and `cost` is an `Int` because counter selectors store actions as C++
`int`s and the product builder feeds them back unchecked.
-/
structure Cmdp where
  numStates : Nat
  numActions : Nat
  cost : Nat → Int → Int
  row : Nat → Int → List (Nat × Rat)
  reload : Nat → Bool
  target : Nat → Bool

/-- Source: helper `cost()` in algorithms.cpp: the cost of taking `action`
at `state`, wrapped as a finite extended integer. -/
def costE (M : Cmdp) (state : Nat) (action : Int) : ExtendedInteger :=
  .fin (M.cost state action)

/-- Reading entry `i` of a state-indexed vector (`std::vector::at`).  All
accesses performed by the embedded algorithms are in range; out-of-range
indices (which throw in C++) default to `infinity`, the value of a
default-constructed `ExtendedInteger` (spec section 3). -/
def vget (v : List ExtendedInteger) (i : Nat) : ExtendedInteger :=
  v.getD i .infinity

/-- The loop body of `overSuccessors` (algorithms.cpp): fold over the
entries of a sparse transition row, keeping the `compare`-best value of
`val` over the entries with positive probability whose column differs from
`excluded`; the accumulator is `none` while no such entry has been seen
(the `firstSuccessor` flag of the source). -/
def succFold (cmp : ExtendedInteger → ExtendedInteger → Bool)
    (val : Nat → ExtendedInteger) (excluded : Int)
    (entries : List (Nat × Rat)) (acc : Option ExtendedInteger) :
    Option ExtendedInteger :=
  entries.foldl
    (fun result entry =>
      if (0 : Rat) < entry.2 ∧ (entry.1 : Int) ≠ excluded then
        match result with
        | none => some (val entry.1)
        | some r => if cmp (val entry.1) r then some (val entry.1) else some r
      else result)
    acc

/-- Source: `overSuccessors` (the overload with `excludedSuccessor`).
Returns `none` when the excluded state was the only successor. -/
def overSuccessorsExcl (M : Cmdp) (state : Nat) (action : Int)
    (cmp : ExtendedInteger → ExtendedInteger → Bool)
    (val : Nat → ExtendedInteger) (excluded : Int) : Option ExtendedInteger :=
  succFold cmp val excluded (M.row state action) none

/-- Source: `overSuccessors` (the overload without exclusion): calls the
other overload with `-1`, which matches no successor, and takes `.value()`
of the optional.  For a proper CMDP every action has a successor, so the
optional is non-empty; the `std::bad_optional_access` branch is modelled by
the default-constructed value `infinity`. -/
def overSuccessors (M : Cmdp) (state : Nat) (action : Int)
    (cmp : ExtendedInteger → ExtendedInteger → Bool)
    (val : Nat → ExtendedInteger) : ExtendedInteger :=
  (overSuccessorsExcl M state action cmp val (-1)).getD .infinity

/-- Source: `maxOverSuccessors`: the maximum of `resourceLevels` over the
successors of (`state`, `action`); `std::greater` is `operator>`. -/
def maxOverSuccessors (M : Cmdp) (state : Nat) (action : Int)
    (resourceLevels : List ExtendedInteger) : ExtendedInteger :=
  overSuccessors M state action gt (fun successor => vget resourceLevels successor)

/-- The truncation operator applied to the old approximation inside
`computeMinInitCons` (algorithms.cpp lines 382-387): entries at states of
the reload set become 0. -/
def truncatedVec (R : Nat → Bool) (n : Nat) (v : List ExtendedInteger) :
    List ExtendedInteger :=
  (List.range n).map (fun s => if R s then .fin 0 else vget v s)

/-- The minimising accumulation pattern shared by the action loops of
`computeMinInitCons` and `computeSafePr`: start from an initial value and
replace it whenever a strictly smaller candidate appears. -/
def minAccum (f : Nat → ExtendedInteger) (l : List Nat)
    (init : ExtendedInteger) : ExtendedInteger :=
  l.foldl (fun acc a => if (f a).lt acc then f a else acc) init

/-- The inner action loop of `computeMinInitCons`: the minimum over all
actions of `cost(s, a) + maxOverSuccessors(s, a, truncated old)`,
accumulated exactly as in the source (initial value `infinity`, replaced
whenever a strictly smaller candidate appears). -/
def costUntilReload (M : Cmdp) (R : Nat → Bool)
    (old : List ExtendedInteger) (s : Nat) : ExtendedInteger :=
  minAccum
    (fun a =>
      (costE M s (a : Int)).add
        (maxOverSuccessors M s (a : Int) (truncatedVec R M.numStates old)))
    (List.range M.numActions) .infinity

/-- One pass of the `computeMinInitCons` do/while loop.  The source copies
the approximation into `minInitConsOldApprox` at the start of the pass and
then updates `minInitConsApprox.at(s)` only when the new candidate is
strictly smaller, so the pass sends `old` to the pointwise minimum of `old`
and the one-step operator applied to `old`. -/
def micPass (M : Cmdp) (R : Nat → Bool) (old : List ExtendedInteger) :
    List ExtendedInteger :=
  (List.range M.numStates).map
    (fun s =>
      let cu := costUntilReload M R old s
      if cu.lt (vget old s) then cu else vget old s)

/-- `k` passes of the `computeMinInitCons` loop (no exit test); used to
state facts about the intermediate approximations. -/
def micIterK (M : Cmdp) (R : Nat → Bool) : Nat → List ExtendedInteger
  | 0 => List.replicate M.numStates .infinity
  | k + 1 => micPass M R (micIterK M R k)

/-- The do/while loop of `computeMinInitCons`: run a pass; stop when the
vector did not change (the source compares with `std::vector::operator!=`,
elementwise `ExtendedInteger::operator==`, which on constructible values is
structural equality); otherwise continue with the new vector.  `none` when
`fuel` passes were insufficient(the source would still be looping). -/
def micLoop (M : Cmdp) (R : Nat → Bool) :
    Nat → List ExtendedInteger → Option (List ExtendedInteger)
  | fuel, v =>
    let v' := micPass M R v
    if v' = v then some v'
    else
      match fuel with
      | 0 => none
      | fuel + 1 => micLoop M R fuel v'

/-- Source: `computeMinInitCons(cmdp, newReloadStates)`: iterate from the
all-`infinity` vector of length `numStates`. -/
def computeMinInitCons (M : Cmdp) (R : Nat → Bool) (fuel : Nat) :
    Option (List ExtendedInteger) :=
  micLoop M R fuel (List.replicate M.numStates .infinity)

/-- Whether state `s` is removed from `rel` by the pruning step of
`computeSafe` given the current `minInitCons` vector: the source loop
visits `s < numStates` and removes it when it is in `rel` and its value
exceeds the capacity. -/
def safePruned (mic : List ExtendedInteger) (capacity : Nat) (s : Nat) : Bool :=
  (vget mic s).gt (.fin capacity)

/-- The outer do/while loop of `computeSafe`: recompute `minInitCons` for
the current reload set, remove the reload states whose value exceeds the
capacity, and stop when nothing was removed.  Returns the final
`minInitCons` vector together with the final reload set. -/
def safeLoop (M : Cmdp) (capacity : Nat) (micFuel : Nat) :
    Nat → (Nat → Bool) → Option (List ExtendedInteger × (Nat → Bool))
  | fuel, rel => do
    let mic ← computeMinInitCons M rel micFuel
    let madeChange :=
      (List.range M.numStates).any (fun s => rel s && safePruned mic capacity s)
    if madeChange then
      let rel' := fun s =>
        rel s && !(decide (s < M.numStates) && safePruned mic capacity s)
      match fuel with
      | 0 => none
      | fuel + 1 => safeLoop M capacity micFuel fuel rel'
    else
      pure (mic, rel)

/-- The final rewrite loop of `computeSafe` applied to the converged
`minInitCons` vector: 0 at the remaining reload states, `infinity` where
the value exceeds the capacity, the value itself otherwise. -/
def safeOut (mic : List ExtendedInteger) (rel : Nat → Bool) (capacity n : Nat) :
    List ExtendedInteger :=
  (List.range n).map
    (fun s =>
      if rel s then .fin 0
      else if (vget mic s).gt (.fin capacity) then .infinity
      else vget mic s)

/-- Source: `computeSafe(cmdp, capacity)`: the pruning loop starting from
the CMDP's reload label followed by the final rewrite. -/
def computeSafe (M : Cmdp) (capacity : Nat) (micFuel relFuel : Nat) :
    Option (List ExtendedInteger) :=
  (safeLoop M capacity micFuel relFuel M.reload).map
    (fun p => safeOut p.1 p.2 capacity M.numStates)

/-- Source: CounterSelector.h: the sentinel marking an undefined
selection-rule entry (bottom). -/
def undefinedAction : Int := -1

/-- Source: CounterSelector.h: a selection rule is a vector of actions
indexed by resource level. -/
abbrev SelectionRule := List Int

/-- Source: CounterSelector.h: a counter selector is a vector of selection
rules indexed by state. -/
abbrev CounterSelector := List SelectionRule

/-- Source: `getSafeActions`: for each state, the first action whose cost
plus the maximum of `safe` over its successors is at most the bound
(capacity at reload states, `safe` at the state otherwise); the entry of
the value-initialised `std::vector` stays 0 when no action qualifies. -/
def getSafeActions (M : Cmdp) (safe : List ExtendedInteger) (capacity : Nat) :
    List Int :=
  (List.range M.numStates).map
    (fun s =>
      let maxCost : ExtendedInteger :=
        if M.reload s then .fin capacity else vget safe s
      match (List.range M.numActions).find?
          (fun a =>
            ((costE M s (a : Int)).add
              (maxOverSuccessors M s (a : Int) safe)).le maxCost) with
      | some a => (a : Int)
      | none => 0)

/-- Source: `maxOfSos`: the maximum of `resourceLevels` at
`currentSuccessor` and of `safe` over the other successors; when
`currentSuccessor` is the only successor the excluded maximum is empty and
only the resource level remains. -/
def maxOfSos (M : Cmdp) (safe : List ExtendedInteger) (state : Nat)
    (action : Int) (resourceLevels : List ExtendedInteger)
    (currentSuccessor : Nat) : ExtendedInteger :=
  let intermediateMax :=
    overSuccessorsExcl M state action gt (fun t => vget safe t)
      (currentSuccessor : Int)
  let resourceLvl := vget resourceLevels currentSuccessor
  match intermediateMax with
  | none => resourceLvl
  | some m => resourceLvl.maxE m

/-- Source: `computeSprVal`: the cost of the action plus the minimum over
successors of `maxOfSos`. -/
def computeSprVal (M : Cmdp) (safe : List ExtendedInteger) (state : Nat)
    (action : Int) (resourceLevels : List ExtendedInteger) : ExtendedInteger :=
  (costE M state action).add
    (overSuccessors M state action lt
      (fun successor => maxOfSos M safe state action resourceLevels successor))

/-- Source: `getActionMinimisingSprVal`: linear scan from action 0, keeping
the first action attaining the minimum SPR value. -/
def getActionMinimisingSprVal (M : Cmdp) (safe : List ExtendedInteger)
    (state : Nat) (resourceLevels : List ExtendedInteger) : Int :=
  (((List.range M.numActions).drop 1).foldl
    (fun (p : Int × ExtendedInteger) a =>
      let sprVal := computeSprVal M safe state (a : Int) resourceLevels
      if sprVal.lt p.2 then ((a : Int), sprVal) else p)
    (0, computeSprVal M safe state 0 resourceLevels)).1

/-- The re-computation of the minimum SPR value over all actions in the
loop body of `computeSafePr` (algorithms.cpp lines 506-512). -/
def minSprVal (M : Cmdp) (safe : List ExtendedInteger) (state : Nat)
    (resourceLevels : List ExtendedInteger) : ExtendedInteger :=
  minAccum (fun a => computeSprVal M safe state (a : Int) resourceLevels)
    (List.range M.numActions) .infinity

/-- The argmin vector `a` of one pass of the `computeSafePr` loop; the
value-initialised `std::vector<int>` leaves 0 at target states. -/
def sprA (M : Cmdp) (safe : List ExtendedInteger)
    (vold : List ExtendedInteger) : List Int :=
  (List.range M.numStates).map
    (fun s => if M.target s then 0 else getActionMinimisingSprVal M safe s vold)

/-- The Bellman update of one pass of the `computeSafePr` loop: non-target
states get the minimum SPR value computed from the old approximation,
target states keep their value. -/
def sprBellman (M : Cmdp) (safe : List ExtendedInteger)
    (vold : List ExtendedInteger) : List ExtendedInteger :=
  (List.range M.numStates).map
    (fun s => if M.target s then vget vold s else minSprVal M safe s vold)

/-- The two-sided truncation operator of `computeSafePr` (lines 518-525):
values above the capacity become `infinity`, values at reload states
become 0. -/
def sprTrunc (M : Cmdp) (capacity : Nat) (v : List ExtendedInteger) :
    List ExtendedInteger :=
  (List.range M.numStates).map
    (fun s =>
      if (vget v s).gt (.fin capacity) then .infinity
      else if M.reload s then .fin 0 else vget v s)

/-- One pass of the `computeSafePr` do/while loop acting on the value
vector: Bellman update followed by the two-sided truncation. -/
def sprPass (M : Cmdp) (safe : List ExtendedInteger) (capacity : Nat)
    (vold : List ExtendedInteger) : List ExtendedInteger :=
  sprTrunc M capacity (sprBellman M safe vold)

/-- `k` passes of the `computeSafePr` loop on the value vector. -/
def sprIterK (M : Cmdp) (safe : List ExtendedInteger) (capacity : Nat) :
    Nat → List ExtendedInteger
  | 0 => (List.range M.numStates).map
      (fun s => if M.target s then vget safe s else .infinity)
  | k + 1 => sprPass M safe capacity (sprIterK M safe capacity k)

/-- The counter-selector update of one pass (lines 526-530): for every
non-target state whose value strictly decreased, record the argmin action
at the new (truncated) level.  `List.set` models `std::vector::at`
assignment; all indices are in range in well-formed runs (the new value is
finite and between 0 and the capacity there). -/
def csUpdate (M : Cmdp) (vold vnew : List ExtendedInteger) (a : List Int)
    (cs : CounterSelector) : CounterSelector :=
  (List.range M.numStates).foldl
    (fun cs s =>
      if !M.target s && (vget vnew s).lt (vget vold s) then
        cs.set s
          ((cs.getD s []).set (vget vnew s).getValueRaw.toNat (a.getD s 0))
      else cs)
    cs

/-- The do/while loop of `computeSafePr`: one pass computes the argmin
vector, the new value vector and the selector update; the loop exits when
the value vector did not change. -/
def sprLoop (M : Cmdp) (safe : List ExtendedInteger) (capacity : Nat) :
    Nat → CounterSelector → List ExtendedInteger →
    Option (List ExtendedInteger × CounterSelector)
  | fuel, cs, vold =>
    let a := sprA M safe vold
    let v' := sprPass M safe capacity vold
    let cs' := csUpdate M vold v' a cs
    if vold = v' then some (v', cs')
    else
      match fuel with
      | 0 => none
      | fuel + 1 => sprLoop M safe capacity fuel cs' v'

/-- The initial counter selector of `computeSafePr` (lines 480-486): all
entries undefined, then for every state with finite `safe` value the safe
action recorded at level `safe(s)`. -/
def initialCounterSelector (M : Cmdp) (safe : List ExtendedInteger)
    (safeActions : List Int) (capacity : Nat) : CounterSelector :=
  (List.range M.numStates).foldl
    (fun cs s =>
      if (vget safe s).lt .infinity then
        cs.set s
          ((cs.getD s []).set (vget safe s).getValueRaw.toNat
            (safeActions.getD s 0))
      else cs)
    (List.replicate M.numStates (List.replicate (capacity + 1) undefinedAction))

/-- Source: `computeSafePr(cmdp, capacity)`. -/
def computeSafePr (M : Cmdp) (capacity : Nat) (micFuel relFuel prFuel : Nat) :
    Option (List ExtendedInteger × CounterSelector) := do
  let safe ← computeSafe M capacity micFuel relFuel
  let safeActions := getSafeActions M safe capacity
  sprLoop M safe capacity prFuel
    (initialCounterSelector M safe safeActions capacity)
    ((List.range M.numStates).map
      (fun s => if M.target s then vget safe s else .infinity))

/-- The downward walk of `getNextAction` over one selection rule: return
the entry at the greatest level `x ≤ resourceLevel` at which the rule is
defined, and the default action 0 when there is none.  Out-of-range
accesses (which throw in C++) read as undefined. -/
def lookupRule (selectionRule : SelectionRule) : Nat → Int
  | 0 =>
    if selectionRule.getD 0 undefinedAction ≠ undefinedAction
    then selectionRule.getD 0 undefinedAction else 0
  | x + 1 =>
    if selectionRule.getD (x + 1) undefinedAction ≠ undefinedAction
    then selectionRule.getD (x + 1) undefinedAction
    else lookupRule selectionRule x

/-- Source: `getNextAction`: look up the selection rule of `state` and walk
down from `resourceLevel`. -/
def getNextAction (counterSelector : CounterSelector) (state : Nat)
    (resourceLevel : Nat) : Int :=
  lookupRule (counterSelector.getD state []) resourceLevel

/-- Source: `getStateWithBuiltInResourceLevel`: the product state encoding
a pair of original state and resource level. -/
def getStateWithBuiltInResourceLevel
    (originalState currentResourceLevel numberOfResourceLevels : Int) : Int :=
  originalState * numberOfResourceLevels + currentResourceLevel

/-- Source: `getStateWithZeroResource`: the sink state, one past the last
encoded pair. -/
def getStateWithZeroResource (numberOfStates capacity : Int) : Int :=
  getStateWithBuiltInResourceLevel (numberOfStates - 1) (capacity + 1)
    (capacity + 1)

/-- The transition row emitted by
`getTransitionMatrixAccordingToCounterSelector` for the product state
encoding (`state`, `resLvl`): the selector chooses the action, the next
resource level is capacity (at reload states) or the current level, minus
the action cost; a negative next level yields a single edge to the sink,
otherwise one edge per positive-probability successor. -/
def prodRowFor (counterSelector : CounterSelector) (M : Cmdp)
    (capacity : Nat) (state resLvl : Nat) : List (Nat × Rat) :=
  let action := getNextAction counterSelector state resLvl
  let cost := M.cost state action
  let nextResourceLevel : Int :=
    (if M.reload state then (capacity : Int) else (resLvl : Int)) - cost
  if nextResourceLevel < 0 then
    [((getStateWithZeroResource M.numStates capacity).toNat, 1)]
  else
    (M.row state action).filterMap
      (fun entry =>
        if (0 : Rat) < entry.2 then
          some
            ((getStateWithBuiltInResourceLevel entry.1 nextResourceLevel
                (capacity + 1)).toNat,
              entry.2)
        else none)

/-- Source: `getTransitionMatrixAccordingToCounterSelector`: the rows of
the product matrix in the order the builder emits them — one row per pair
(`state`, `resLvl`) in lexicographic order, then the self-loop row of the
sink. -/
def getTransitionMatrixRows (counterSelector : CounterSelector) (M : Cmdp)
    (capacity : Nat) : List (List (Nat × Rat)) :=
  ((List.range M.numStates).flatMap
      (fun state =>
        (List.range (capacity + 1)).map
          (fun resLvl => prodRowFor counterSelector M capacity state resLvl)))
    ++ [[((getStateWithZeroResource M.numStates capacity).toNat, 1)]]

/-- Source: `getStateLabellingForBuiltInResourceLevels`: starting from no
labelled state, mark every product state whose original state carries the
target label. -/
def getStateLabelling (M : Cmdp) (capacity : Nat) : List Bool :=
  ((List.range M.numStates).flatMap
      (fun state =>
        (List.range (capacity + 1)).map (fun resLvl => (state, resLvl)))).foldl
    (fun lab p =>
      if M.target p.1 then
        lab.set
          (getStateWithBuiltInResourceLevel p.1 p.2 ((capacity : Int) + 1)).toNat
          true
      else lab)
    (List.replicate (M.numStates * (capacity + 1) + 1) false)

/--
Modelled from the spec: the two reachability analyses driven by the
validator are performed by code outside the embedded core —
`getProbabilitiesForReachingTargetState` delegates to the generic sparse
MDP model checker and `getStatesFromWhichNeverReach` to
`storm::utility::graph::performProb01`, both external collaborators (spec
sections 1 and 4.G).  They are modelled as an abstract oracle:
`probTarget rows labels x` is the probability of eventually reaching a
target-labelled state from product state `x`, and
`neverReach rows sink x` is true when the probability of reaching `sink`
from `x` is zero.
-/
structure ReachabilityOracle where
  probTarget : List (List (Nat × Rat)) → List Bool → Int → Rat
  neverReach : List (List (Nat × Rat)) → Int → Int → Bool

/-- One iteration of the state loop of `validateCounterSelector`, acting
on the triple (countSelEnsuresTarget, countSelEnsuresResource,
counterExampleForBoth).  When the loop guard `!counterExampleForBoth` has
already failed the iteration does not run (the accumulator is returned
unchanged); otherwise, for a state with finite SafePR value, the target
probability and the survival bit of the product state at resource level
SafePR(s) are checked, and finally the early-exit flag is refreshed to
"both accumulators falsified". -/
def validateStep (oracle : ReachabilityOracle) (counterSelector : CounterSelector)
    (M : Cmdp) (safePr : List ExtendedInteger) (capacity : Nat)
    (acc : Bool × Bool × Bool) (s : Nat) : Bool × Bool × Bool :=
  if acc.2.2 then acc
  else
    let acc1 :=
      if (vget safePr s).lt .infinity then
        let transformedState :=
          getStateWithBuiltInResourceLevel (s : Int)
            (vget safePr s).getValueRaw ((capacity : Int) + 1)
        let countSelEnsuresTarget :=
          if oracle.probTarget (getTransitionMatrixRows counterSelector M capacity)
              (getStateLabelling M capacity) transformedState ≤ 0
          then false else acc.1
        let countSelEnsuresResource :=
          if !(oracle.neverReach (getTransitionMatrixRows counterSelector M capacity)
              (getStateWithZeroResource M.numStates capacity) transformedState)
          then false else acc.2.1
        (countSelEnsuresTarget, countSelEnsuresResource)
      else (acc.1, acc.2.1)
    (acc1.1, acc1.2, !acc1.1 && !acc1.2)

/-- Source: `validateCounterSelector`.  The local flag
`counterExampleForBoth` is declared without an initialiser and read in the
loop guard before its first assignment; its indeterminate initial value is
made explicit as the parameter `initialCounterExampleForBoth`.  The two
accumulators start true and the verdict is their conjunction after the
state loop. -/
def validateCounterSelector (oracle : ReachabilityOracle)
    (initialCounterExampleForBoth : Bool) (counterSelector : CounterSelector)
    (M : Cmdp) (safePr : List ExtendedInteger) (capacity : Nat) : Bool :=
  let final :=
    (List.range M.numStates).foldl
      (validateStep oracle counterSelector M safePr capacity)
      (true, true, initialCounterExampleForBoth)
  final.1 && final.2.1

/-- Well-formedness of a CMDP (spec section 3): action costs are
non-negative and every state-action pair has at least one successor with
positive probability. -/
def Wf (M : Cmdp) : Prop :=
  (∀ s < M.numStates, ∀ a < M.numActions, 0 ≤ M.cost s (a : Int)) ∧
  (∀ s < M.numStates, ∀ a < M.numActions, ∃ e ∈ M.row s (a : Int), (0 : Rat) < e.2)

/-- An extended integer is non-negative (in particular it is not
negative infinity). -/
def NNE (x : ExtendedInteger) : Prop := (ExtendedInteger.fin 0).le x = true

/-- All entries of a vector are non-negative (out-of-range entries read as
`infinity`, which is non-negative). -/
def NNVec (v : List ExtendedInteger) : Prop := ∀ i, NNE (vget v i)

/-- Pointwise order on state-indexed vectors. -/
def vle (v w : List ExtendedInteger) : Prop :=
  ∀ i, (vget v i).le (vget w i) = true

/-- The number of entries of a vector equal to `infinity`; first component
of the termination measure of the fixpoint loops. -/
def topCount (v : List ExtendedInteger) : Nat :=
  v.countP (fun x => x = .infinity)

/-- The contribution of one entry to the second component of the
termination measure: the (clamped) value of a finite entry. -/
def finWeight : ExtendedInteger → Nat
  | .fin v => v.toNat
  | .inf _ => 0

/-- The sum of the finite entries of a vector; second component of the
termination measure of the fixpoint loops. -/
def finSum (v : List ExtendedInteger) : Nat := (v.map finWeight).sum

/-- A two-state chain used to instantiate the theorems on concrete data:
state 0 moves to state 1 at cost 2, state 1 is a reload and target state
with a free self-loop (scenario S2 of the spec). -/
def exampleChain : Cmdp where
  numStates := 2
  numActions := 1
  cost := fun s _ => if s = 0 then 2 else 0
  row := fun s _ => if s = 0 then [(1, 1)] else [(1, 1)]
  reload := fun s => s == 1
  target := fun s => s == 1

/-- Two reload states exchanging places at cost 1: every state is a reload
state but reaching the next reload state from either costs 1, so
MinInitCons is 1 everywhere while Safe is 0 everywhere. -/
def exampleTwoReloads : Cmdp where
  numStates := 2
  numActions := 1
  cost := fun _ _ => 1
  row := fun s _ => if s = 0 then [(1, 1)] else [(0, 1)]
  reload := fun _ => true
  target := fun _ => false

/-- Two independent self-loop states at cost 0; state 0 is the only target
state.  Used to exhibit the validator reading an aliased product state:
with capacity 0, the SafePR entry 1 at state 1 is finite, so the validator
inspects product index 1 * (0+1) + 1 = 2, which is the sink. -/
def exampleAlias : Cmdp where
  numStates := 2
  numActions := 1
  cost := fun _ _ => 0
  row := fun s _ => if s = 0 then [(0, 1)] else [(1, 1)]
  reload := fun _ => false
  target := fun s => s == 0

/-- The exact reachability oracle for the product of `exampleAlias` with
capacity 0 and any selector: the product consists of the two self-loop
states 0 and 1 and the sink 2 with its self-loop; only product state 0 is
labelled target, so the probability of reaching a target state is 1 from
state 0 and 0 elsewhere, and the sink is reached only from itself. -/
def exampleAliasOracle : ReachabilityOracle where
  probTarget := fun _ _ q => if q = 0 then 1 else 0
  neverReach := fun _ _ q => q ≠ 2

/-- A single state with a free self-loop and no target label anywhere;
with any capacity, no product state can reach a target-labelled state, so
the exact oracle reports probability 0 everywhere and no state reaches the
sink.  Used for the uninitialised-flag divergence of the validator. -/
def exampleNoTarget : Cmdp where
  numStates := 1
  numActions := 1
  cost := fun _ _ => 0
  row := fun _ _ => [(0, 1)]
  reload := fun _ => false
  target := fun _ => false

/-- The exact reachability oracle for the product of `exampleNoTarget`:
no product state is labelled target (so all probabilities are 0) and the
sink is unreachable from the non-sink states. -/
def exampleNoTargetOracle : ReachabilityOracle where
  probTarget := fun _ _ _ => 0
  neverReach := fun _ _ q => q ≠ 1

/-- The all-undefined counter selector for a CMDP with `n` states and
capacity `capacity`. -/
def emptySelector (n capacity : Nat) : CounterSelector :=
  List.replicate n (List.replicate (capacity + 1) undefinedAction)

/-- The product-state index the validator inspects for original state `s`:
the encoding of the pair (s, SafePR(s)). -/
def validatorIndex (safePr : List ExtendedInteger) (capacity : Nat)
    (s : Nat) : Int :=
  getStateWithBuiltInResourceLevel (s : Int) (vget safePr s).getValueRaw
    ((capacity : Int) + 1)

/-- The two conditions the validator checks for a qualifying state `s`
(spec section 4.G): the oracle's probability of reaching a target state
from the product state of `s` is strictly positive, and that product state
is in the oracle's set of states from which the sink is never reached. -/
def validatorChecksOk (oracle : ReachabilityOracle) (cs : CounterSelector)
    (M : Cmdp) (safePr : List ExtendedInteger) (capacity : Nat)
    (s : Nat) : Prop :=
  0 < oracle.probTarget (getTransitionMatrixRows cs M capacity)
      (getStateLabelling M capacity) (validatorIndex safePr capacity s) ∧
  oracle.neverReach (getTransitionMatrixRows cs M capacity)
      (getStateWithZeroResource M.numStates capacity)
      (validatorIndex safePr capacity s) = true

instance (oracle : ReachabilityOracle) (cs : CounterSelector) (M : Cmdp)
    (safePr : List ExtendedInteger) (capacity s : Nat) :
    Decidable (validatorChecksOk oracle cs M safePr capacity s) := by
  unfold validatorChecksOk
  infer_instance

namespace ExtendedInteger

@[simp] theorem lt_fin_fin (v w : Int) : (fin v).lt (fin w) = decide (v < w) := rfl

@[simp] theorem lt_fin_inf (v : Int) (b : Bool) : (fin v).lt (inf b) = b := by
  cases b <;> rfl

@[simp] theorem lt_inf_fin (b : Bool) (w : Int) : (inf b).lt (fin w) = !b := by
  cases b <;> rfl

@[simp] theorem lt_inf_inf (x y : Bool) : (inf x).lt (inf y) = (!x && y) := by
  cases x <;> cases y <;> rfl

@[simp] theorem le_fin_fin (v w : Int) : (fin v).le (fin w) = decide (v ≤ w) := by
  simp only [le, gt, lt_fin_fin, ← decide_not]
  exact decide_eq_decide.mpr (by omega)

@[simp] theorem le_fin_inf (v : Int) (b : Bool) : (fin v).le (inf b) = b := by
  simp [le, gt]

@[simp] theorem le_inf_fin (b : Bool) (w : Int) : (inf b).le (fin w) = !b := by
  simp [le, gt]

@[simp] theorem le_inf_inf (x y : Bool) : (inf x).le (inf y) = (y || !x) := by
  cases x <;> cases y <;> rfl

theorem le_eq_not_lt (a b : ExtendedInteger) : a.le b = !(b.lt a) := rfl

@[simp] theorem infinity_eq : infinity = inf true := rfl

theorem le_refl' (a : ExtendedInteger) : a.le a = true := by
  cases a <;> simp

theorem le_top' (a : ExtendedInteger) : a.le (inf true) = true := by
  cases a <;> simp

theorem le_trans' {a b c : ExtendedInteger} (h1 : a.le b = true)
    (h2 : b.le c = true) : a.le c = true := by
  rcases a with v | (_ | _) <;> rcases b with w | (_ | _) <;>
    rcases c with u | (_ | _) <;> simp_all <;> omega

theorem le_antisymm' {a b : ExtendedInteger} (h1 : a.le b = true)
    (h2 : b.le a = true) : a = b := by
  rcases a with v | (_ | _) <;> rcases b with w | (_ | _) <;> simp_all <;> omega

theorem le_of_lt' {a b : ExtendedInteger} (h : a.lt b = true) : a.le b = true := by
  rcases a with v | (_ | _) <;> rcases b with w | (_ | _) <;> simp_all <;> omega

theorem lt_of_lt_of_le' {a b c : ExtendedInteger} (h1 : a.lt b = true)
    (h2 : b.le c = true) : a.lt c = true := by
  rcases a with v | (_ | _) <;> rcases b with w | (_ | _) <;>
    rcases c with u | (_ | _) <;> simp_all <;> omega

theorem lt_of_le_of_lt' {a b c : ExtendedInteger} (h1 : a.le b = true)
    (h2 : b.lt c = true) : a.lt c = true := by
  rcases a with v | (_ | _) <;> rcases b with w | (_ | _) <;>
    rcases c with u | (_ | _) <;> simp_all <;> omega

theorem lt_irrefl' (a : ExtendedInteger) : a.lt a = false := by
  cases a <;> simp

theorem lt_infinity_iff {a : ExtendedInteger} :
    a.lt (inf true) = true ↔ a ≠ inf true := by
  cases a <;> simp

@[simp] theorem add_fin_fin (v w : Int) :
    (fin v).add (fin w) = fin (v + w) := rfl

@[simp] theorem add_fin_inf (v : Int) (b : Bool) :
    (fin v).add (inf b) = inf b := by cases b <;> rfl

@[simp] theorem add_inf_fin (b : Bool) (w : Int) :
    (inf b).add (fin w) = inf b := by cases b <;> rfl

@[simp] theorem add_inf_inf (x y : Bool) :
    (inf x).add (inf y) = inf (x || (x != y)) := by cases x <;> cases y <;> rfl

theorem add_le_add_left' (c : Int) {a b : ExtendedInteger}
    (h : a.le b = true) : ((fin c).add a).le ((fin c).add b) = true := by
  rcases a with v | (_ | _) <;> rcases b with w | (_ | _) <;> simp_all <;> omega

end ExtendedInteger

theorem NNE_top : NNE (ExtendedInteger.inf true) := by simp [NNE]

theorem NNE_fin {v : Int} : NNE (ExtendedInteger.fin v) ↔ 0 ≤ v := by
  simp [NNE]

theorem NNE_add_fin {c : Int} {x : ExtendedInteger} (hc : 0 ≤ c)
    (hx : NNE x) : NNE ((ExtendedInteger.fin c).add x) := by
  cases x <;> simp_all [NNE] <;> omega

theorem NNE_not_neg_inf {x : ExtendedInteger} (hx : NNE x) :
    x ≠ ExtendedInteger.inf false := by
  cases x <;> simp_all [NNE]

theorem pickMax_left (r x : ExtendedInteger) :
    r.le (if x.gt r then x else r) = true := by
  by_cases h : x.gt r = true
  · simp only [h, if_true]
    exact ExtendedInteger.le_of_lt' h
  · simp only [h, if_false]
    exact ExtendedInteger.le_refl' r

theorem pickMax_new (r x : ExtendedInteger) :
    x.le (if x.gt r then x else r) = true := by
  by_cases h : x.gt r = true
  · simp only [h, if_true]; exact ExtendedInteger.le_refl' x
  · simp only [h, if_false]
    have : x.le r = !(x.gt r) := rfl
    simp [this, h]

theorem pickMax_le {r x B : ExtendedInteger} (h1 : r.le B = true)
    (h2 : x.le B = true) : (if x.gt r then x else r).le B = true := by
  by_cases h : x.gt r = true <;> simp [h, h1, h2]

theorem pickMin_le_old (r x : ExtendedInteger) :
    (if x.lt r then x else r).le r = true := by
  by_cases h : x.lt r = true
  · simp only [h, if_true]; exact ExtendedInteger.le_of_lt' h
  · simp only [h, if_false]; exact ExtendedInteger.le_refl' r

theorem pickMin_le_new (r x : ExtendedInteger) :
    (if x.lt r then x else r).le x = true := by
  by_cases h : x.lt r = true
  · simp only [h, if_true]; exact ExtendedInteger.le_refl' x
  · simp only [h, if_false]
    have : r.le x = !(x.lt r) := rfl
    simp [this, h]

theorem pickMin_ge {r x B : ExtendedInteger} (h1 : B.le r = true)
    (h2 : B.le x = true) : B.le (if x.lt r then x else r) = true := by
  by_cases h : x.lt r = true <;> simp [h, h1, h2]

theorem vget_map_range (n : Nat) (f : Nat → ExtendedInteger) (i : Nat) :
    vget ((List.range n).map f) i =
      if i < n then f i else .infinity := by
  by_cases h : i < n
  · simp [vget, List.getD_eq_getElem?_getD, List.getElem?_map,
      List.getElem?_range, h]
  · rw [vget, List.getD_eq_getElem?_getD, List.getElem?_eq_none]
    · simp [h]
    · simp [List.length_map, List.length_range]; omega

theorem vget_replicate (n : Nat) (x : ExtendedInteger) (i : Nat) :
    vget (List.replicate n x) i = if i < n then x else .infinity := by
  by_cases h : i < n
  · simp [vget, List.getD_eq_getElem?_getD, List.getElem?_replicate, h]
  · rw [vget, List.getD_eq_getElem?_getD, List.getElem?_eq_none]
    · simp [h]
    · simp; omega

theorem vget_ge_length {v : List ExtendedInteger} {i : Nat}
    (h : v.length ≤ i) : vget v i = .infinity := by
  rw [vget, List.getD_eq_getElem?_getD, List.getElem?_eq_none h]
  rfl

theorem vle_refl (v : List ExtendedInteger) : vle v v :=
  fun i => ExtendedInteger.le_refl' _

theorem vle_trans {u v w : List ExtendedInteger} (h1 : vle u v)
    (h2 : vle v w) : vle u w :=
  fun i => ExtendedInteger.le_trans' (h1 i) (h2 i)

theorem pickMin_mono {x x' r r' : ExtendedInteger} (hx : x.le x' = true)
    (hr : r.le r' = true) :
    (if x.lt r then x else r).le (if x'.lt r' then x' else r') = true := by
  by_cases h : x'.lt r' = true
  · simp only [h, if_true]
    exact ExtendedInteger.le_trans' (pickMin_le_new r x) hx
  · simp only [h, if_false]
    exact ExtendedInteger.le_trans' (pickMin_le_old r x) hr

theorem pickMax_mono {x x' r r' : ExtendedInteger} (hx : x.le x' = true)
    (hr : r.le r' = true) :
    (if x.gt r then x else r).le (if x'.gt r' then x' else r') = true := by
  by_cases h : x.gt r = true
  · simp only [h, if_true]
    exact ExtendedInteger.le_trans' hx (pickMax_new r' x')
  · simp only [h, if_false]
    exact ExtendedInteger.le_trans' hr (pickMax_left r' x')

theorem succFold_nil (cmp : ExtendedInteger → ExtendedInteger → Bool)
    (val : Nat → ExtendedInteger) (e : Int) (acc : Option ExtendedInteger) :
    succFold cmp val e [] acc = acc := rfl

theorem succFold_cons (cmp : ExtendedInteger → ExtendedInteger → Bool)
    (val : Nat → ExtendedInteger) (e : Int) (entry : Nat × Rat)
    (l : List (Nat × Rat)) (acc : Option ExtendedInteger) :
    succFold cmp val e (entry :: l) acc =
      succFold cmp val e l
        (if (0 : Rat) < entry.2 ∧ (entry.1 : Int) ≠ e then
          match acc with
          | none => some (val entry.1)
          | some r =>
            if cmp (val entry.1) r then some (val entry.1) else some r
        else acc) := rfl

theorem succFold_cons_none (cmp : ExtendedInteger → ExtendedInteger → Bool)
    (val : Nat → ExtendedInteger) (e : Int) (entry : Nat × Rat)
    (l : List (Nat × Rat)) :
    succFold cmp val e (entry :: l) none =
      succFold cmp val e l
        (if (0 : Rat) < entry.2 ∧ (entry.1 : Int) ≠ e
         then some (val entry.1) else none) := rfl

theorem succFold_cons_some (cmp : ExtendedInteger → ExtendedInteger → Bool)
    (val : Nat → ExtendedInteger) (e : Int) (entry : Nat × Rat)
    (l : List (Nat × Rat)) (x : ExtendedInteger) :
    succFold cmp val e (entry :: l) (some x) =
      succFold cmp val e l
        (some (if (0 : Rat) < entry.2 ∧ (entry.1 : Int) ≠ e
          then (if cmp (val entry.1) x then val entry.1 else x) else x)) := by
  rw [succFold_cons]
  by_cases hq : (0 : Rat) < entry.2 ∧ (entry.1 : Int) ≠ e <;>
    by_cases hc : cmp (val entry.1) x = true <;> simp [hq, hc]

theorem succFold_some_of_acc (cmp : ExtendedInteger → ExtendedInteger → Bool)
    (val : Nat → ExtendedInteger) (e : Int) (l : List (Nat × Rat)) :
    ∀ x, ∃ r, succFold cmp val e l (some x) = some r := by
  induction l with
  | nil => intro x; exact ⟨x, rfl⟩
  | cons entry l ih =>
    intro x
    rw [succFold_cons_some]
    exact ih _

theorem succFold_isSome_of_mem (cmp : ExtendedInteger → ExtendedInteger → Bool)
    (val : Nat → ExtendedInteger) (e : Int) {l : List (Nat × Rat)}
    {entry : Nat × Rat} (hmem : entry ∈ l) (hp : (0 : Rat) < entry.2)
    (hne : (entry.1 : Int) ≠ e) :
    ∀ acc, ∃ r, succFold cmp val e l acc = some r := by
  induction l with
  | nil => cases hmem
  | cons h0 l ih =>
    intro acc
    rcases acc with _ | x
    · rw [succFold_cons_none]
      rcases List.mem_cons.mp hmem with heq | hmem2
      · subst heq
        rw [if_pos ⟨hp, hne⟩]
        exact succFold_some_of_acc cmp val e l _
      · by_cases hq : (0 : Rat) < h0.2 ∧ (h0.1 : Int) ≠ e
        · rw [if_pos hq]
          exact succFold_some_of_acc cmp val e l _
        · rw [if_neg hq]
          exact ih hmem2 none
    · rw [succFold_cons_some]
      exact succFold_some_of_acc cmp val e l _

theorem succFold_acc_le_gt (val : Nat → ExtendedInteger) (e : Int)
    (l : List (Nat × Rat)) :
    ∀ x r, succFold ExtendedInteger.gt val e l (some x) = some r →
      x.le r = true := by
  induction l with
  | nil =>
    intro x r h
    rw [succFold_nil] at h
    cases h
    exact ExtendedInteger.le_refl' x
  | cons entry l ih =>
    intro x r h
    rw [succFold_cons_some] at h
    refine ExtendedInteger.le_trans' ?_ (ih _ r h)
    by_cases hq : (0 : Rat) < entry.2 ∧ (entry.1 : Int) ≠ e
    · rw [if_pos hq]
      exact pickMax_left x (val entry.1)
    · rw [if_neg hq]
      exact ExtendedInteger.le_refl' x

theorem succFold_mem_le_gt (val : Nat → ExtendedInteger) (e : Int)
    {l : List (Nat × Rat)} {entry : Nat × Rat} (hmem : entry ∈ l)
    (hp : (0 : Rat) < entry.2) (hne : (entry.1 : Int) ≠ e) :
    ∀ acc r, succFold ExtendedInteger.gt val e l acc = some r →
      (val entry.1).le r = true := by
  induction l with
  | nil => cases hmem
  | cons h0 l ih =>
    intro acc r h
    rcases List.mem_cons.mp hmem with heq | hmem2
    · subst heq
      rcases acc with _ | x
      · rw [succFold_cons_none, if_pos ⟨hp, hne⟩] at h
        exact succFold_acc_le_gt val e l _ r h
      · rw [succFold_cons_some, if_pos ⟨hp, hne⟩] at h
        exact ExtendedInteger.le_trans' (pickMax_new x (val entry.1))
          (succFold_acc_le_gt val e l _ r h)
    · rcases acc with _ | x
      · rw [succFold_cons_none] at h
        by_cases hq : (0 : Rat) < h0.2 ∧ (h0.1 : Int) ≠ e
        · rw [if_pos hq] at h
          exact ih hmem2 _ r h
        · rw [if_neg hq] at h
          exact ih hmem2 _ r h
      · rw [succFold_cons_some] at h
        exact ih hmem2 _ r h

theorem succFold_acc_ge_lt (val : Nat → ExtendedInteger) (e : Int)
    (l : List (Nat × Rat)) :
    ∀ x r, succFold ExtendedInteger.lt val e l (some x) = some r →
      r.le x = true := by
  induction l with
  | nil =>
    intro x r h
    rw [succFold_nil] at h
    cases h
    exact ExtendedInteger.le_refl' x
  | cons entry l ih =>
    intro x r h
    rw [succFold_cons_some] at h
    refine ExtendedInteger.le_trans' (ih _ r h) ?_
    by_cases hq : (0 : Rat) < entry.2 ∧ (entry.1 : Int) ≠ e
    · rw [if_pos hq]
      exact pickMin_le_old x (val entry.1)
    · rw [if_neg hq]
      exact ExtendedInteger.le_refl' x

theorem succFold_ge_lt (val : Nat → ExtendedInteger) (e : Int)
    (B : ExtendedInteger) {l : List (Nat × Rat)}
    (hB : ∀ entry ∈ l, (0 : Rat) < entry.2 → (entry.1 : Int) ≠ e →
      B.le (val entry.1) = true) :
    ∀ acc r, (∀ x, acc = some x → B.le x = true) →
      succFold ExtendedInteger.lt val e l acc = some r → B.le r = true := by
  induction l with
  | nil =>
    intro acc r hacc h
    rw [succFold_nil] at h
    exact hacc r h
  | cons entry l ih =>
    intro acc r hacc h
    have hBl : ∀ x ∈ l, (0 : Rat) < x.2 → (x.1 : Int) ≠ e →
        B.le (val x.1) = true := by
      intro x hx hp hn
      exact hB x (List.mem_cons_of_mem _ hx) hp hn
    rcases acc with _ | x
    · rw [succFold_cons_none] at h
      by_cases hq : (0 : Rat) < entry.2 ∧ (entry.1 : Int) ≠ e
      · rw [if_pos hq] at h
        refine ih hBl _ r ?_ h
        intro y hy
        cases hy
        exact hB entry (List.mem_cons_self _ _) hq.1 hq.2
      · rw [if_neg hq] at h
        refine ih hBl _ r ?_ h
        intro y hy
        cases hy
    · rw [succFold_cons_some] at h
      by_cases hq : (0 : Rat) < entry.2 ∧ (entry.1 : Int) ≠ e
      · rw [if_pos hq] at h
        refine ih hBl _ r ?_ h
        intro y hy
        cases hy
        exact pickMin_ge (hacc x rfl) (hB entry (List.mem_cons_self _ _) hq.1 hq.2)
      · rw [if_neg hq] at h
        refine ih hBl _ r ?_ h
        intro y hy
        cases hy
        exact hacc x rfl

theorem succFold_pred (cmp : ExtendedInteger → ExtendedInteger → Bool)
    (val : Nat → ExtendedInteger) (e : Int) (P : ExtendedInteger → Prop)
    (hval : ∀ t, P (val t)) {l : List (Nat × Rat)} :
    ∀ acc r, (∀ x, acc = some x → P x) →
      succFold cmp val e l acc = some r → P r := by
  induction l with
  | nil =>
    intro acc r hacc h
    rw [succFold_nil] at h
    exact hacc r h
  | cons entry l ih =>
    intro acc r hacc h
    rcases acc with _ | x
    · rw [succFold_cons_none] at h
      by_cases hq : (0 : Rat) < entry.2 ∧ (entry.1 : Int) ≠ e
      · rw [if_pos hq] at h
        refine ih _ r ?_ h
        intro y hy
        cases hy
        exact hval _
      · rw [if_neg hq] at h
        refine ih _ r ?_ h
        intro y hy
        cases hy
    · rw [succFold_cons_some] at h
      refine ih _ r ?_ h
      intro y hy
      cases hy
      by_cases hq : (0 : Rat) < entry.2 ∧ (entry.1 : Int) ≠ e
      · rw [if_pos hq]
        by_cases hc : cmp (val entry.1) x = true
        · rw [if_pos hc]; exact hval _
        · rw [if_neg hc]; exact hacc x rfl
      · rw [if_neg hq]
        exact hacc x rfl

theorem succFold_mono_gt {val val' : Nat → ExtendedInteger} (e : Int)
    (hval : ∀ t, (val t).le (val' t) = true) (l : List (Nat × Rat)) :
    ∀ acc acc',
      ((acc = none ∧ acc' = none) ∨
        (∃ x x', acc = some x ∧ acc' = some x' ∧ x.le x' = true)) →
      ((succFold ExtendedInteger.gt val e l acc = none ∧
          succFold ExtendedInteger.gt val' e l acc' = none) ∨
        (∃ r r', succFold ExtendedInteger.gt val e l acc = some r ∧
          succFold ExtendedInteger.gt val' e l acc' = some r' ∧
          r.le r' = true)) := by
  induction l with
  | nil => intro acc acc' h; simpa [succFold_nil] using h
  | cons entry l ih =>
    intro acc acc' h
    rcases h with ⟨h1, h2⟩ | ⟨x, x', hx, hx', hle⟩
    · subst h1; subst h2
      rw [succFold_cons_none, succFold_cons_none]
      by_cases hq : (0 : Rat) < entry.2 ∧ (entry.1 : Int) ≠ e
      · rw [if_pos hq, if_pos hq]
        exact ih _ _ (Or.inr ⟨_, _, rfl, rfl, hval entry.1⟩)
      · rw [if_neg hq, if_neg hq]
        exact ih _ _ (Or.inl ⟨rfl, rfl⟩)
    · subst hx; subst hx'
      rw [succFold_cons_some, succFold_cons_some]
      refine ih _ _ (Or.inr ⟨_, _, rfl, rfl, ?_⟩)
      by_cases hq : (0 : Rat) < entry.2 ∧ (entry.1 : Int) ≠ e
      · rw [if_pos hq, if_pos hq]
        exact pickMax_mono (hval entry.1) hle
      · rw [if_neg hq, if_neg hq]
        exact hle

theorem succFold_mono_lt {val val' : Nat → ExtendedInteger} (e : Int)
    (hval : ∀ t, (val t).le (val' t) = true) (l : List (Nat × Rat)) :
    ∀ acc acc',
      ((acc = none ∧ acc' = none) ∨
        (∃ x x', acc = some x ∧ acc' = some x' ∧ x.le x' = true)) →
      ((succFold ExtendedInteger.lt val e l acc = none ∧
          succFold ExtendedInteger.lt val' e l acc' = none) ∨
        (∃ r r', succFold ExtendedInteger.lt val e l acc = some r ∧
          succFold ExtendedInteger.lt val' e l acc' = some r' ∧
          r.le r' = true)) := by
  induction l with
  | nil => intro acc acc' h; simpa [succFold_nil] using h
  | cons entry l ih =>
    intro acc acc' h
    rcases h with ⟨h1, h2⟩ | ⟨x, x', hx, hx', hle⟩
    · subst h1; subst h2
      rw [succFold_cons_none, succFold_cons_none]
      by_cases hq : (0 : Rat) < entry.2 ∧ (entry.1 : Int) ≠ e
      · rw [if_pos hq, if_pos hq]
        exact ih _ _ (Or.inr ⟨_, _, rfl, rfl, hval entry.1⟩)
      · rw [if_neg hq, if_neg hq]
        exact ih _ _ (Or.inl ⟨rfl, rfl⟩)
    · subst hx; subst hx'
      rw [succFold_cons_some, succFold_cons_some]
      refine ih _ _ (Or.inr ⟨_, _, rfl, rfl, ?_⟩)
      by_cases hq : (0 : Rat) < entry.2 ∧ (entry.1 : Int) ≠ e
      · rw [if_pos hq, if_pos hq]
        exact pickMin_mono (hval entry.1) hle
      · rw [if_neg hq, if_neg hq]
        exact hle


theorem minAccum_nil (f : Nat → ExtendedInteger) (init : ExtendedInteger) :
    minAccum f [] init = init := rfl

theorem minAccum_cons (f : Nat → ExtendedInteger) (a : Nat) (l : List Nat)
    (init : ExtendedInteger) :
    minAccum f (a :: l) init =
      minAccum f l (if (f a).lt init then f a else init) := rfl

theorem minAccum_le_init (f : Nat → ExtendedInteger) (l : List Nat) :
    ∀ init, (minAccum f l init).le init = true := by
  induction l with
  | nil => intro init; exact ExtendedInteger.le_refl' init
  | cons a l ih =>
    intro init
    rw [minAccum_cons]
    exact ExtendedInteger.le_trans' (ih _) (pickMin_le_old init (f a))

theorem minAccum_le_mem (f : Nat → ExtendedInteger) {l : List Nat} {x : Nat}
    (hmem : x ∈ l) : ∀ init, (minAccum f l init).le (f x) = true := by
  induction l with
  | nil => cases hmem
  | cons a l ih =>
    intro init
    rw [minAccum_cons]
    rcases List.mem_cons.mp hmem with heq | hmem'
    · subst heq
      exact ExtendedInteger.le_trans' (minAccum_le_init f l _)
        (pickMin_le_new init (f x))
    · exact ih hmem' _

theorem minAccum_cases (f : Nat → ExtendedInteger) (l : List Nat) :
    ∀ init, minAccum f l init = init ∨ ∃ x ∈ l, minAccum f l init = f x := by
  induction l with
  | nil => intro init; exact Or.inl rfl
  | cons a l ih =>
    intro init
    rw [minAccum_cons]
    by_cases hc : (f a).lt init = true
    · simp only [hc, if_true]
      rcases ih (f a) with h | ⟨x, hx, h⟩
      · exact Or.inr ⟨a, List.mem_cons_self _ _, h⟩
      · exact Or.inr ⟨x, List.mem_cons_of_mem _ hx, h⟩
    · simp only [hc, if_false]
      rcases ih init with h | ⟨x, hx, h⟩
      · exact Or.inl h
      · exact Or.inr ⟨x, List.mem_cons_of_mem _ hx, h⟩

theorem minAccum_ge (f : Nat → ExtendedInteger) {B : ExtendedInteger}
    {l : List Nat} (hB : ∀ x ∈ l, B.le (f x) = true) :
    ∀ init, B.le init = true → B.le (minAccum f l init) = true := by
  induction l with
  | nil => intro init h; exact h
  | cons a l ih =>
    intro init h
    rw [minAccum_cons]
    have hBl : ∀ x ∈ l, B.le (f x) = true := by
      intro x hx
      exact hB x (List.mem_cons_of_mem _ hx)
    exact ih hBl _ (pickMin_ge h (hB a (List.mem_cons_self _ _)))

theorem minAccum_mono {f g : Nat → ExtendedInteger} {l : List Nat}
    (hfg : ∀ x ∈ l, (f x).le (g x) = true) :
    ∀ init init', init.le init' = true →
      (minAccum f l init).le (minAccum g l init') = true := by
  induction l with
  | nil => intro init init' h; exact h
  | cons a l ih =>
    intro init init' h
    rw [minAccum_cons, minAccum_cons]
    have hfgl : ∀ x ∈ l, (f x).le (g x) = true := by
      intro x hx
      exact hfg x (List.mem_cons_of_mem _ hx)
    exact ih hfgl _ _ (pickMin_mono (hfg a (List.mem_cons_self _ _)) h)

theorem maxOverSuccessors_NNE {M : Cmdp} {s : Nat} {a : Int}
    {v : List ExtendedInteger} (h : NNVec v) :
    NNE (maxOverSuccessors M s a v) := by
  unfold maxOverSuccessors overSuccessors overSuccessorsExcl
  cases heq : succFold ExtendedInteger.gt (fun t => vget v t) (-1)
      (M.row s a) none with
  | none => simpa [heq] using NNE_top
  | some r =>
    simp only [heq, Option.getD_some]
    refine succFold_pred _ _ _ NNE (fun t => h t) none r ?_ heq
    intro x hx
    cases hx

theorem maxOverSuccessors_mono {M : Cmdp} {s : Nat} {a : Int}
    {v w : List ExtendedInteger} (h : vle v w) :
    (maxOverSuccessors M s a v).le (maxOverSuccessors M s a w) = true := by
  unfold maxOverSuccessors overSuccessors overSuccessorsExcl
  rcases succFold_mono_gt (-1) (fun t => h t) (M.row s a) none none
      (Or.inl ⟨rfl, rfl⟩) with ⟨h1, h2⟩ | ⟨r, r', h1, h2, h3⟩
  · simp only [h1, h2, Option.getD_none]
    exact ExtendedInteger.le_refl' _
  · simp only [h1, h2, Option.getD_some]
    exact h3

theorem mem_le_maxOverSuccessors {M : Cmdp} {s : Nat} {a : Int}
    {v : List ExtendedInteger} {entry : Nat × Rat}
    (hmem : entry ∈ M.row s a) (hp : (0 : Rat) < entry.2) :
    (vget v entry.1).le (maxOverSuccessors M s a v) = true := by
  have hne : ((entry.1 : Nat) : Int) ≠ (-1 : Int) := by omega
  obtain ⟨r, hr⟩ := succFold_isSome_of_mem ExtendedInteger.gt
    (fun t => vget v t) (-1) hmem hp hne none
  unfold maxOverSuccessors overSuccessors overSuccessorsExcl
  rw [hr]
  simpa using succFold_mem_le_gt _ _ hmem hp hne none r hr

theorem vget_truncatedVec (R : Nat → Bool) (n : Nat)
    (v : List ExtendedInteger) (i : Nat) :
    vget (truncatedVec R n v) i =
      if i < n then (if R i then .fin 0 else vget v i) else .infinity := by
  unfold truncatedVec
  rw [vget_map_range]

theorem truncatedVec_NN {R : Nat → Bool} {n : Nat} {v : List ExtendedInteger}
    (h : NNVec v) : NNVec (truncatedVec R n v) := by
  intro i
  rw [vget_truncatedVec]
  by_cases hi : i < n
  · simp only [hi, if_true]
    by_cases hR : R i = true
    · simp [hR, NNE]
    · simp only [hR, if_false]
      exact h i
  · simp only [hi, if_false]
    exact NNE_top

theorem costUntilReload_NNE {M : Cmdp} {R : Nat → Bool}
    {old : List ExtendedInteger} {s : Nat} (hwf : Wf M)
    (hs : s < M.numStates) (h : NNVec old) :
    NNE (costUntilReload M R old s) := by
  unfold costUntilReload
  rcases minAccum_cases
    (fun a =>
      (costE M s (a : Int)).add
        (maxOverSuccessors M s (a : Int) (truncatedVec R M.numStates old)))
    (List.range M.numActions) .infinity with hcase | ⟨a, ha, hcase⟩
  · rw [hcase]; exact NNE_top
  · rw [hcase]
    exact NNE_add_fin (hwf.1 s hs a (List.mem_range.mp ha))
      (maxOverSuccessors_NNE (truncatedVec_NN h))

theorem costUntilReload_mono {M : Cmdp} {R R' : Nat → Bool}
    {old old' : List ExtendedInteger} {s : Nat}
    (hsub : ∀ t, R' t = true → R t = true) (hle : vle old old')
    (hNN : NNVec old') :
    (costUntilReload M R old s).le (costUntilReload M R' old' s) = true := by
  unfold costUntilReload
  refine minAccum_mono ?_ _ _ (ExtendedInteger.le_refl' _)
  intro a _
  refine ExtendedInteger.add_le_add_left' _ (maxOverSuccessors_mono ?_)
  intro t
  rw [vget_truncatedVec, vget_truncatedVec]
  by_cases ht : t < M.numStates
  · simp only [ht, if_true]
    by_cases hR' : R' t = true
    · simp [hsub t hR', hR']
    · by_cases hR : R t = true
      · simp only [hR, hR', if_true, if_false]
        exact hNN t
      · simp only [hR, hR', if_false]
        exact hle t
  · simp only [ht, if_false]
    exact ExtendedInteger.le_refl' _

theorem length_micPass (M : Cmdp) (R : Nat → Bool) (v : List ExtendedInteger) :
    (micPass M R v).length = M.numStates := by
  simp [micPass]

theorem vget_micPass (M : Cmdp) (R : Nat → Bool) (v : List ExtendedInteger)
    (s : Nat) :
    vget (micPass M R v) s =
      if s < M.numStates then
        (if (costUntilReload M R v s).lt (vget v s)
         then costUntilReload M R v s else vget v s)
      else .infinity := by
  unfold micPass
  rw [vget_map_range]

theorem micPass_le (M : Cmdp) (R : Nat → Bool) {v : List ExtendedInteger}
    (hlen : v.length = M.numStates) : vle (micPass M R v) v := by
  intro i
  rw [vget_micPass]
  by_cases h : i < M.numStates
  · simp only [h, if_true]
    exact pickMin_le_old _ _
  · simp only [h, if_false]
    rw [vget_ge_length (by omega)]
    exact ExtendedInteger.le_refl' _

theorem micPass_NN {M : Cmdp} {R : Nat → Bool} {v : List ExtendedInteger}
    (hwf : Wf M) (h : NNVec v) : NNVec (micPass M R v) := by
  intro i
  rw [vget_micPass]
  by_cases hi : i < M.numStates
  · simp only [hi, if_true]
    by_cases hc : (costUntilReload M R v i).lt (vget v i) = true
    · simp only [hc, if_true]
      exact costUntilReload_NNE hwf hi h
    · simp only [hc, if_false]
      exact h i
  · simp only [hi, if_false]
    exact NNE_top

theorem micPass_mono {M : Cmdp} {R R' : Nat → Bool} {v v' : List ExtendedInteger}
    (hsub : ∀ t, R' t = true → R t = true) (hle : vle v v') (hNN : NNVec v') :
    vle (micPass M R v) (micPass M R' v') := by
  intro i
  rw [vget_micPass, vget_micPass]
  by_cases hi : i < M.numStates
  · simp only [hi, if_true]
    exact pickMin_mono (costUntilReload_mono hsub hle hNN) (hle i)
  · simp only [hi, if_false]
    exact ExtendedInteger.le_refl' _

theorem length_micIterK (M : Cmdp) (R : Nat → Bool) :
    ∀ k, (micIterK M R k).length = M.numStates := by
  intro k
  cases k with
  | zero => simp [micIterK]
  | succ k => exact length_micPass M R _

theorem micIterK_NN {M : Cmdp} {R : Nat → Bool} (hwf : Wf M) :
    ∀ k, NNVec (micIterK M R k) := by
  intro k
  induction k with
  | zero =>
    intro i
    unfold micIterK
    rw [vget_replicate]
    by_cases hi : i < M.numStates <;> simp [hi, NNE_top]
  | succ k ih => exact micPass_NN hwf ih

theorem micIterK_antitone (M : Cmdp) (R : Nat → Bool) (k : Nat) :
    vle (micIterK M R (k + 1)) (micIterK M R k) :=
  micPass_le M R (length_micIterK M R k)

theorem micIterK_mono_R {M : Cmdp} {R R' : Nat → Bool} (hwf : Wf M)
    (hsub : ∀ t, R' t = true → R t = true) :
    ∀ k, vle (micIterK M R k) (micIterK M R' k) := by
  intro k
  induction k with
  | zero => exact vle_refl _
  | succ k ih => exact micPass_mono hsub ih (micIterK_NN hwf k)

theorem micIterK_stab {M : Cmdp} {R : Nat → Bool} {j : Nat}
    (hfix : micPass M R (micIterK M R j) = micIterK M R j) :
    ∀ k, j ≤ k → micIterK M R k = micIterK M R j := by
  intro k hk
  induction k with
  | zero =>
    have : j = 0 := Nat.le_zero.mp hk
    rw [this]
  | succ k ih =>
    rcases Nat.lt_or_ge j (k + 1) with h | h
    · have hjk : j ≤ k := Nat.lt_succ_iff.mp h
      show micPass M R (micIterK M R k) = micIterK M R j
      rw [ih hjk, hfix]
    · have : j = k + 1 := Nat.le_antisymm hk h
      rw [this]

theorem micLoop_zero (M : Cmdp) (R : Nat → Bool) (v : List ExtendedInteger) :
    micLoop M R 0 v =
      if micPass M R v = v then some (micPass M R v) else none := by
  by_cases h : micPass M R v = v <;> simp [micLoop, h]

theorem micLoop_succ (M : Cmdp) (R : Nat → Bool) (fuel : Nat)
    (v : List ExtendedInteger) :
    micLoop M R (fuel + 1) v =
      if micPass M R v = v then some (micPass M R v)
      else micLoop M R fuel (micPass M R v) := by
  by_cases h : micPass M R v = v <;> simp [micLoop, h]

theorem micLoop_fix {M : Cmdp} {R : Nat → Bool} :
    ∀ fuel v w, micLoop M R fuel v = some w → micPass M R w = w := by
  intro fuel
  induction fuel with
  | zero =>
    intro v w h
    rw [micLoop_zero] at h
    by_cases hfix : micPass M R v = v
    · rw [if_pos hfix] at h
      cases h
      rw [hfix]
      exact hfix
    · rw [if_neg hfix] at h
      cases h
  | succ fuel ih =>
    intro v w h
    rw [micLoop_succ] at h
    by_cases hfix : micPass M R v = v
    · rw [if_pos hfix] at h
      cases h
      rw [hfix]
      exact hfix
    · rw [if_neg hfix] at h
      exact ih _ w h

theorem micLoop_isIterate {M : Cmdp} {R : Nat → Bool} :
    ∀ fuel v w, micLoop M R fuel v = some w →
      ∃ j, w = (fun u => micPass M R u)^[j] v := by
  intro fuel
  induction fuel with
  | zero =>
    intro v w h
    rw [micLoop_zero] at h
    by_cases hfix : micPass M R v = v
    · rw [if_pos hfix] at h
      cases h
      exact ⟨1, rfl⟩
    · rw [if_neg hfix] at h
      cases h
  | succ fuel ih =>
    intro v w h
    rw [micLoop_succ] at h
    by_cases hfix : micPass M R v = v
    · rw [if_pos hfix] at h
      cases h
      exact ⟨1, rfl⟩
    · rw [if_neg hfix] at h
      obtain ⟨j, hj⟩ := ih _ w h
      exact ⟨j + 1, by rw [Function.iterate_succ_apply]; exact hj⟩

theorem micIterK_eq_iterate (M : Cmdp) (R : Nat → Bool) :
    ∀ k, micIterK M R k =
      (fun u => micPass M R u)^[k] (List.replicate M.numStates .infinity) := by
  intro k
  induction k with
  | zero => rfl
  | succ k ih =>
    show micPass M R (micIterK M R k) = _
    rw [Function.iterate_succ_apply', ih]

theorem micLoop_fuel_mono {M : Cmdp} {R : Nat → Bool} :
    ∀ fuel v w g, micLoop M R fuel v = some w → fuel ≤ g →
      micLoop M R g v = some w := by
  intro fuel
  induction fuel with
  | zero =>
    intro v w g h _
    rw [micLoop_zero] at h
    by_cases hfix : micPass M R v = v
    · rw [if_pos hfix] at h
      cases g with
      | zero => rw [micLoop_zero, if_pos hfix]; exact h
      | succ g => rw [micLoop_succ, if_pos hfix]; exact h
    · rw [if_neg hfix] at h
      cases h
  | succ fuel ih =>
    intro v w g h hg
    rw [micLoop_succ] at h
    by_cases hfix : micPass M R v = v
    · rw [if_pos hfix] at h
      cases g with
      | zero => rw [micLoop_zero, if_pos hfix]; exact h
      | succ g => rw [micLoop_succ, if_pos hfix]; exact h
    · rw [if_neg hfix] at h
      cases g with
      | zero => omega
      | succ g =>
        rw [micLoop_succ, if_neg hfix]
        exact ih _ w g h (by omega)

theorem micLoop_unique {M : Cmdp} {R : Nat → Bool} {f g : Nat}
    {v w w' : List ExtendedInteger} (h : micLoop M R f v = some w)
    (h' : micLoop M R g v = some w') : w = w' := by
  rcases Nat.le_total f g with hle | hle
  · have := micLoop_fuel_mono f v w g h hle
    rw [this] at h'
    cases h'
    rfl
  · have := micLoop_fuel_mono g v w' f h' hle
    rw [h] at this
    cases this
    rfl

theorem topCount_cons (z : ExtendedInteger) (l : List ExtendedInteger) :
    topCount (z :: l) =
      (if z = ExtendedInteger.infinity then 1 else 0) + topCount l := by
  simp only [topCount, List.countP_cons, decide_eq_true_eq]
  exact Nat.add_comm _ _

theorem finSum_cons (z : ExtendedInteger) (l : List ExtendedInteger) :
    finSum (z :: l) = finWeight z + finSum l := by
  simp [finSum]

theorem topCount_mono : ∀ (v w : List ExtendedInteger),
    v.length = w.length → (∀ i, (vget v i).le (vget w i) = true) →
    NNVec v →
    topCount v ≤ topCount w ∧
      (topCount v = topCount w → finSum v ≤ finSum w) := by
  intro v
  induction v with
  | nil =>
    intro w hlen _ _
    have : w = [] := by
      cases w
      · rfl
      · simp at hlen
    subst this
    exact ⟨Nat.le_refl _, fun _ => Nat.le_refl _⟩
  | cons x v ih =>
    intro w hlen hle hNN
    cases w with
    | nil => simp at hlen
    | cons y w =>
      have hlen' : v.length = w.length := by simpa using hlen
      have hle0 : x.le y = true := hle 0
      have hlet : ∀ i, (vget v i).le (vget w i) = true := fun i => hle (i + 1)
      have hNN0 : NNE x := hNN 0
      have hNNt : NNVec v := fun i => hNN (i + 1)
      obtain ⟨ht, hs⟩ := ih w hlen' hlet hNNt
      rw [topCount_cons, topCount_cons, finSum_cons, finSum_cons]
      rcases y with b | (_ | _)
      · rcases x with a | (_ | _)
        · have hab : a ≤ b := by simpa using hle0
          have ha0 : 0 ≤ a := by simpa [NNE] using hNN0
          have hw : finWeight (ExtendedInteger.fin a) ≤
              finWeight (ExtendedInteger.fin b) := by
            simp only [finWeight]
            omega
          simp only [ExtendedInteger.infinity_eq, reduceCtorEq, if_false]
          constructor
          · omega
          · intro heq
            have := hs (by omega)
            omega
        · simp [NNE] at hNN0
        · simp at hle0
      · rcases x with a | (_ | _)
        · simp at hle0
        · simp [NNE] at hNN0
        · simp at hle0
      · rcases x with a | (_ | _)
        · simp only [ExtendedInteger.infinity_eq, reduceCtorEq, if_false,
            if_true]
          constructor
          · omega
          · intro heq
            omega
        · simp [NNE] at hNN0
        · simp only [ExtendedInteger.infinity_eq, if_true]
          have hwz : finWeight (ExtendedInteger.inf true) = 0 := rfl
          constructor
          · omega
          · intro heq
            have := hs (by omega)
            rw [hwz]
            omega

theorem lex_decrease {v w : List ExtendedInteger} (hlen : v.length = w.length)
    (hle : ∀ i, (vget v i).le (vget w i) = true) (hne : v ≠ w)
    (hNN : NNVec v) :
    topCount v < topCount w ∨
      (topCount v = topCount w ∧ finSum v < finSum w) := by
  induction v generalizing w with
  | nil =>
    cases w
    · exact absurd rfl hne
    · simp at hlen
  | cons x v ih =>
    cases w with
    | nil => simp at hlen
    | cons y w =>
      have hlen' : v.length = w.length := by simpa using hlen
      have hle0 : x.le y = true := hle 0
      have hlet : ∀ i, (vget v i).le (vget w i) = true := fun i => hle (i + 1)
      have hNN0 : NNE x := hNN 0
      have hNNt : NNVec v := fun i => hNN (i + 1)
      by_cases hxy : x = y
      · subst hxy
        have hvw : v ≠ w := by
          intro hc
          exact hne (by rw [hc])
        rw [topCount_cons, topCount_cons, finSum_cons, finSum_cons]
        rcases ih hlen' hlet hvw hNNt with h | ⟨h1, h2⟩
        · left
          omega
        · right
          omega
      · obtain ⟨ht, hs⟩ := topCount_mono v w hlen' hlet hNNt
        rw [topCount_cons, topCount_cons, finSum_cons, finSum_cons]
        rcases y with b | (_ | _)
        · rcases x with a | (_ | _)
          · have hab : a < b := by
              have h1 : a ≤ b := by simpa using hle0
              have h2 : a ≠ b := by
                intro h
                exact hxy (by rw [h])
              omega
            have ha0 : 0 ≤ a := by simpa [NNE] using hNN0
            have hw : finWeight (ExtendedInteger.fin a) <
                finWeight (ExtendedInteger.fin b) := by
              simp only [finWeight]
              omega
            simp only [ExtendedInteger.infinity_eq, reduceCtorEq, if_false]
            rcases Nat.lt_or_ge (topCount v) (topCount w) with hstrict | hge
            · left
              omega
            · have hteq : topCount v = topCount w := Nat.le_antisymm ht hge
              right
              have hsle := hs hteq
              omega
          · simp [NNE] at hNN0
          · simp at hle0
        · rcases x with a | (_ | _)
          · simp at hle0
          · simp [NNE] at hNN0
          · simp at hle0
        · rcases x with a | (_ | _)
          · left
            simp only [ExtendedInteger.infinity_eq, reduceCtorEq, if_false,
              if_true]
            omega
          · simp [NNE] at hNN0
          · exact absurd rfl hxy


theorem micLoop_stab {M : Cmdp} (R : Nat → Bool) (hwf : Wf M) :
    ∀ (T S : Nat) (v : List ExtendedInteger), topCount v = T → finSum v = S →
      v.length = M.numStates → NNVec v →
      ∃ fuel w, micLoop M R fuel v = some w := by
  intro T
  induction T using Nat.strongRecOn with
  | ind T ihT =>
    intro S
    induction S using Nat.strongRecOn with
    | ind S ihS =>
      intro v hT hS hlen hNN
      by_cases hfix : micPass M R v = v
      · exact ⟨0, micPass M R v, by rw [micLoop_zero, if_pos hfix]⟩
      · have hle := micPass_le M R hlen
        have hNN2 := @micPass_NN M R v hwf hNN
        have hlen2 := length_micPass M R v
        have hdec := lex_decrease (by rw [hlen2, hlen]) hle hfix hNN2
        rcases hdec with hlt | ⟨heq, hlt⟩
        · obtain ⟨fuel, w, hw⟩ := ihT (topCount (micPass M R v)) (hT ▸ hlt)
            (finSum (micPass M R v)) _ rfl rfl hlen2 hNN2
          exact ⟨fuel + 1, w, by rw [micLoop_succ, if_neg hfix]; exact hw⟩
        · obtain ⟨fuel, w, hw⟩ := ihS (finSum (micPass M R v)) (hS ▸ hlt)
            _ (heq.trans hT) rfl hlen2 hNN2
          exact ⟨fuel + 1, w, by rw [micLoop_succ, if_neg hfix]; exact hw⟩

theorem computeMinInitCons_terminates {M : Cmdp} (hwf : Wf M)
    (R : Nat → Bool) :
    ∃ fuel w, computeMinInitCons M R fuel = some w := by
  have hNN0 : NNVec (List.replicate M.numStates ExtendedInteger.infinity) := by
    intro i
    rw [vget_replicate]
    by_cases hi : i < M.numStates <;> simp [hi, NNE_top]
  exact micLoop_stab R hwf _ _ _ rfl rfl (List.length_replicate _ _) hNN0

theorem computeMinInitCons_isIterK {M : Cmdp} {R : Nat → Bool} {fuel : Nat}
    {w : List ExtendedInteger} (h : computeMinInitCons M R fuel = some w) :
    ∃ j, w = micIterK M R j := by
  obtain ⟨j, hj⟩ := micLoop_isIterate fuel _ w h
  exact ⟨j, by rw [micIterK_eq_iterate]; exact hj⟩

theorem computeMinInitCons_NN {M : Cmdp} {R : Nat → Bool} {fuel : Nat}
    {w : List ExtendedInteger} (hwf : Wf M)
    (h : computeMinInitCons M R fuel = some w) : NNVec w := by
  obtain ⟨j, hj⟩ := computeMinInitCons_isIterK h
  rw [hj]
  exact micIterK_NN hwf j

theorem computeMinInitCons_length {M : Cmdp} {R : Nat → Bool} {fuel : Nat}
    {w : List ExtendedInteger} (h : computeMinInitCons M R fuel = some w) :
    w.length = M.numStates := by
  obtain ⟨j, hj⟩ := computeMinInitCons_isIterK h
  rw [hj]
  exact length_micIterK M R j

theorem computeMinInitCons_fix {M : Cmdp} {R : Nat → Bool} {fuel : Nat}
    {w : List ExtendedInteger} (h : computeMinInitCons M R fuel = some w) :
    micPass M R w = w :=
  micLoop_fix fuel _ w h

theorem computeMinInitCons_mono_R {M : Cmdp} {R R' : Nat → Bool}
    {fuel fuel' : Nat} {w w' : List ExtendedInteger} (hwf : Wf M)
    (hsub : ∀ s, R' s = true → R s = true)
    (h : computeMinInitCons M R fuel = some w)
    (h' : computeMinInitCons M R' fuel' = some w') : vle w w' := by
  obtain ⟨j, hj⟩ := computeMinInitCons_isIterK h
  obtain ⟨j', hj'⟩ := computeMinInitCons_isIterK h'
  have hfix : micPass M R (micIterK M R j) = micIterK M R j := by
    rw [← hj]
    exact computeMinInitCons_fix h
  have hfix' : micPass M R' (micIterK M R' j') = micIterK M R' j' := by
    rw [← hj']
    exact computeMinInitCons_fix h'
  have h1 : micIterK M R (max j j') = micIterK M R j :=
    micIterK_stab hfix _ (Nat.le_max_left j j')
  have h2 : micIterK M R' (max j j') = micIterK M R' j' :=
    micIterK_stab hfix' _ (Nat.le_max_right j j')
  rw [hj, hj', ← h1, ← h2]
  exact micIterK_mono_R hwf hsub (max j j')

theorem micPass_fix_le_bellman {M : Cmdp} {R : Nat → Bool}
    {w : List ExtendedInteger} (hfix : micPass M R w = w) :
    ∀ s, s < M.numStates → ∀ a, a < M.numActions →
      (vget w s).le
        ((costE M s (a : Int)).add
          (maxOverSuccessors M s (a : Int)
            (truncatedVec R M.numStates w))) = true := by
  intro s hs a ha
  have hws : vget w s = vget (micPass M R w) s := by rw [hfix]
  rw [vget_micPass] at hws
  rw [if_pos hs] at hws
  have hcu : (vget w s).le (costUntilReload M R w s) = true := by
    by_cases hc : (costUntilReload M R w s).lt (vget w s) = true
    · rw [if_pos hc] at hws
      rw [hws]
      exact ExtendedInteger.le_refl' _
    · have heq2 : (vget w s).le (costUntilReload M R w s) = !((costUntilReload M R w s).lt (vget w s)) := rfl
      have hcf : (costUntilReload M R w s).lt (vget w s) = false :=
        Bool.eq_false_iff.mpr hc
      rw [heq2, hcf]
      rfl
  refine ExtendedInteger.le_trans' hcu ?_
  unfold costUntilReload
  exact minAccum_le_mem _ (List.mem_range.mpr ha) _


theorem safeLoop_unfold (M : Cmdp) (capacity micFuel fuel : Nat)
    (rel : Nat → Bool) :
    safeLoop M capacity micFuel fuel rel =
      (computeMinInitCons M rel micFuel).bind (fun mic =>
        if (List.range M.numStates).any
            (fun s => rel s && safePruned mic capacity s) then
          match fuel with
          | 0 => none
          | fuel + 1 =>
            safeLoop M capacity micFuel fuel
              (fun s =>
                rel s && !(decide (s < M.numStates) && safePruned mic capacity s))
        else some (mic, rel)) := by
  cases fuel <;> rfl

theorem safeLoop_spec {M : Cmdp} {capacity micFuel : Nat} (hwf : Wf M) :
    ∀ (fuel : Nat) (rel : Nat → Bool) (micF : List ExtendedInteger)
      (relF : Nat → Bool),
      safeLoop M capacity micFuel fuel rel = some (micF, relF) →
      (∀ s, relF s = true → rel s = true) ∧
      computeMinInitCons M relF micFuel = some micF ∧
      (∀ s, s < M.numStates → rel s = true → relF s = false →
        (ExtendedInteger.fin capacity).lt (vget micF s) = true) ∧
      (∀ s, s < M.numStates → relF s = true →
        (vget micF s).le (.fin capacity) = true) := by
  intro fuel
  induction fuel with
  | zero =>
    intro rel micF relF h
    rw [safeLoop_unfold] at h
    cases hmic : computeMinInitCons M rel micFuel with
    | none => rw [hmic] at h; cases h
    | some mic =>
      rw [hmic, Option.some_bind] at h
      by_cases hmc : (List.range M.numStates).any
          (fun s => rel s && safePruned mic capacity s) = true
      · rw [if_pos hmc] at h
        cases h
      · rw [if_neg hmc] at h
        simp only [Option.some_inj, Prod.mk.injEq] at h
        obtain ⟨h1, h2⟩ := h
        subst h1
        subst h2
        refine ⟨fun s hs => hs, hmic, ?_, ?_⟩
        · intro s _ hrel hrelF
          rw [hrel] at hrelF
          cases hrelF
        · intro s hs hrel
          have := List.any_eq_true.not.mp hmc
          push_neg at this
          have hns := this s (List.mem_range.mpr hs)
          rw [hrel, Bool.true_and] at hns
          have hfalse : safePruned mic capacity s = false :=
            Bool.eq_false_iff.mpr hns
          have heq1 : (vget mic s).le (ExtendedInteger.fin capacity) =
              !((vget mic s).gt (ExtendedInteger.fin capacity)) := rfl
          rw [heq1]
          have heq2 : (vget mic s).gt (ExtendedInteger.fin capacity) = false :=
            hfalse
          rw [heq2]
          rfl
  | succ fuel ih =>
    intro rel micF relF h
    rw [safeLoop_unfold] at h
    cases hmic : computeMinInitCons M rel micFuel with
    | none => rw [hmic] at h; cases h
    | some mic =>
      rw [hmic, Option.some_bind] at h
      by_cases hmc : (List.range M.numStates).any
          (fun s => rel s && safePruned mic capacity s) = true
      · rw [if_pos hmc] at h
        obtain ⟨hsub', hmic', hrem', hle'⟩ := ih _ micF relF h
        have hsub : ∀ s, relF s = true → rel s = true := by
          intro s hs
          have h2 := hsub' s hs
          simp only [Bool.and_eq_true] at h2
          exact h2.1
        refine ⟨hsub, hmic', ?_, hle'⟩
        intro s hs hrel hrelF
        by_cases hrel' : (rel s &&
            !(decide (s < M.numStates) && safePruned mic capacity s)) = true
        · exact hrem' s hs hrel' hrelF
        · have hpruned : safePruned mic capacity s = true := by
            have := Bool.eq_false_iff.mpr hrel'
            rw [hrel] at this
            simp only [Bool.true_and, Bool.not_eq_false'] at this
            rw [Bool.and_eq_true] at this
            exact this.2
          have hlt1 : (ExtendedInteger.fin capacity).lt (vget mic s) = true :=
            hpruned
          have hmono : vle mic micF :=
            computeMinInitCons_mono_R hwf hsub hmic hmic'
          exact ExtendedInteger.lt_of_lt_of_le' hlt1 (hmono s)
      · rw [if_neg hmc] at h
        simp only [Option.some_inj, Prod.mk.injEq] at h
        obtain ⟨h1, h2⟩ := h
        subst h1
        subst h2
        refine ⟨fun s hs => hs, hmic, ?_, ?_⟩
        · intro s _ hrel hrelF
          rw [hrel] at hrelF
          cases hrelF
        · intro s hs hrel
          have := List.any_eq_true.not.mp hmc
          push_neg at this
          have hns := this s (List.mem_range.mpr hs)
          rw [hrel, Bool.true_and] at hns
          have hfalse : safePruned mic capacity s = false :=
            Bool.eq_false_iff.mpr hns
          have heq1 : (vget mic s).le (ExtendedInteger.fin capacity) =
              !((vget mic s).gt (ExtendedInteger.fin capacity)) := rfl
          rw [heq1]
          have heq2 : (vget mic s).gt (ExtendedInteger.fin capacity) = false :=
            hfalse
          rw [heq2]
          rfl


theorem le_maxE_left (a b : ExtendedInteger) : a.le (a.maxE b) = true := by
  unfold ExtendedInteger.maxE
  by_cases h : a.lt b = true
  · rw [if_pos h]
    exact ExtendedInteger.le_of_lt' h
  · rw [if_neg h]
    exact ExtendedInteger.le_refl' a

theorem le_maxE_right (a b : ExtendedInteger) : b.le (a.maxE b) = true := by
  unfold ExtendedInteger.maxE
  by_cases h : a.lt b = true
  · rw [if_pos h]
    exact ExtendedInteger.le_refl' b
  · rw [if_neg h]
    have heq : b.le a = !(a.lt b) := rfl
    rw [heq, Bool.eq_false_iff.mpr h]
    rfl

theorem succFold_pred_mem (cmp : ExtendedInteger → ExtendedInteger → Bool)
    (val : Nat → ExtendedInteger) (e : Int) (P : ExtendedInteger → Prop)
    {l : List (Nat × Rat)}
    (hval : ∀ entry ∈ l, (0 : Rat) < entry.2 → (entry.1 : Int) ≠ e →
      P (val entry.1)) :
    ∀ acc r, (∀ x, acc = some x → P x) →
      succFold cmp val e l acc = some r → P r := by
  induction l with
  | nil =>
    intro acc r hacc h
    rw [succFold_nil] at h
    exact hacc r h
  | cons entry l ih =>
    intro acc r hacc h
    have hvall : ∀ x ∈ l, (0 : Rat) < x.2 → (x.1 : Int) ≠ e → P (val x.1) := by
      intro x hx hp hn
      exact hval x (List.mem_cons_of_mem _ hx) hp hn
    rcases acc with _ | x
    · rw [succFold_cons_none] at h
      by_cases hq : (0 : Rat) < entry.2 ∧ (entry.1 : Int) ≠ e
      · rw [if_pos hq] at h
        refine ih hvall _ r ?_ h
        intro y hy
        cases hy
        exact hval entry (List.mem_cons_self _ _) hq.1 hq.2
      · rw [if_neg hq] at h
        refine ih hvall _ r ?_ h
        intro y hy
        cases hy
    · rw [succFold_cons_some] at h
      refine ih hvall _ r ?_ h
      intro y hy
      cases hy
      by_cases hq : (0 : Rat) < entry.2 ∧ (entry.1 : Int) ≠ e
      · rw [if_pos hq]
        by_cases hc : cmp (val entry.1) x = true
        · rw [if_pos hc]
          exact hval entry (List.mem_cons_self _ _) hq.1 hq.2
        · rw [if_neg hc]
          exact hacc x rfl
      · rw [if_neg hq]
        exact hacc x rfl

theorem vget_safeOut (mic : List ExtendedInteger) (rel : Nat → Bool)
    (capacity n s : Nat) :
    vget (safeOut mic rel capacity n) s =
      if s < n then
        (if rel s then .fin 0
         else if (vget mic s).gt (.fin capacity) then .infinity
         else vget mic s)
      else .infinity := by
  unfold safeOut
  rw [vget_map_range]

theorem length_safeOut (mic : List ExtendedInteger) (rel : Nat → Bool)
    (capacity n : Nat) : (safeOut mic rel capacity n).length = n := by
  simp [safeOut]

theorem computeSafe_some {M : Cmdp} {capacity micFuel relFuel : Nat}
    {safe : List ExtendedInteger}
    (h : computeSafe M capacity micFuel relFuel = some safe) :
    ∃ micF relF, safeLoop M capacity micFuel relFuel M.reload =
        some (micF, relF) ∧
      safe = safeOut micF relF capacity M.numStates := by
  unfold computeSafe at h
  rcases Option.map_eq_some'.mp h with ⟨⟨micF, relF⟩, h1, h2⟩
  exact ⟨micF, relF, h1, h2.symm⟩

theorem safeOut_NN {micF : List ExtendedInteger} {relF : Nat → Bool}
    {capacity n : Nat} (hNN : NNVec micF) :
    NNVec (safeOut micF relF capacity n) := by
  intro i
  rw [vget_safeOut]
  by_cases hi : i < n
  · rw [if_pos hi]
    by_cases hr : relF i = true
    · rw [if_pos hr]
      simp [NNE]
    · rw [if_neg hr]
      by_cases hg : (vget micF i).gt (.fin capacity) = true
      · rw [if_pos hg]
        exact NNE_top
      · rw [if_neg hg]
        exact hNN i
  · rw [if_neg hi]
    exact NNE_top

theorem safeOut_bound {micF : List ExtendedInteger} {relF : Nat → Bool}
    {capacity n : Nat} (hNN : NNVec micF) (s : Nat) :
    (∃ v : Int, vget (safeOut micF relF capacity n) s = .fin v ∧
      0 ≤ v ∧ v ≤ (capacity : Int)) ∨
    vget (safeOut micF relF capacity n) s = .infinity := by
  rw [vget_safeOut]
  by_cases hi : s < n
  · rw [if_pos hi]
    by_cases hr : relF s = true
    · rw [if_pos hr]
      exact Or.inl ⟨0, rfl, Int.le_refl 0, by omega⟩
    · rw [if_neg hr]
      by_cases hg : (vget micF s).gt (.fin capacity) = true
      · rw [if_pos hg]
        exact Or.inr rfl
      · rw [if_neg hg]
        have hle : (vget micF s).le (.fin capacity) = true := by
          have heq : (vget micF s).le (ExtendedInteger.fin capacity) =
              !((vget micF s).gt (ExtendedInteger.fin capacity)) := rfl
          rw [heq, Bool.eq_false_iff.mpr hg]
          rfl
        have hNNs := hNN s
        cases hv : vget micF s with
        | fin v =>
          left
          refine ⟨v, rfl, ?_, ?_⟩
          · rw [hv] at hNNs
            simpa [NNE] using hNNs
          · rw [hv] at hle
            simpa using hle
        | inf b =>
          rw [hv] at hNNs hle
          cases b
          · simp [NNE] at hNNs
          · simp at hle
  · rw [if_neg hi]
    exact Or.inr rfl

theorem safeOut_le_capacity_of_fin {micF : List ExtendedInteger}
    {relF : Nat → Bool} {capacity n : Nat} (hNN : NNVec micF) {s : Nat}
    (hfin : vget (safeOut micF relF capacity n) s ≠ .infinity) :
    (vget (safeOut micF relF capacity n) s).le (.fin capacity) = true := by
  rcases @safeOut_bound micF relF capacity n hNN s with
    ⟨v, hv, hv0, hvc⟩ | htop
  · rw [hv]
    simpa using hvc
  · exact absurd htop hfin


theorem maxOverSuccessors_le_maxOfSos {M : Cmdp} {s : Nat} {a : Int}
    {safe vold : List ExtendedInteger} (hv : vle safe vold)
    {entry : Nat × Rat} (hmem : entry ∈ M.row s a) (hp : (0 : Rat) < entry.2) :
    (maxOverSuccessors M s a safe).le
      (maxOfSos M safe s a vold entry.1) = true := by
  have hne : ((entry.1 : Nat) : Int) ≠ (-1 : Int) := by omega
  obtain ⟨X, hX⟩ := succFold_isSome_of_mem ExtendedInteger.gt
    (fun u => vget safe u) (-1) hmem hp hne none
  have hmos : maxOverSuccessors M s a safe = X := by
    unfold maxOverSuccessors overSuccessors overSuccessorsExcl
    rw [hX]
    rfl
  rw [hmos]
  unfold maxOfSos overSuccessorsExcl
  cases hexcl : succFold ExtendedInteger.gt (fun u => vget safe u)
      ((entry.1 : Nat) : Int) (M.row s a) none with
  | none =>
    simp only [hexcl]
    refine succFold_pred_mem ExtendedInteger.gt (fun u => vget safe u) (-1)
      (fun x => x.le (vget vold entry.1) = true) ?_ none X ?_ hX
    · intro entry2 hmem2 hp2 _
      by_cases heq : entry2.1 = entry.1
      · rw [heq]
        exact hv entry.1
      · exfalso
        have hne2 : ((entry2.1 : Nat) : Int) ≠ ((entry.1 : Nat) : Int) := by
          omega
        obtain ⟨Y, hY⟩ := succFold_isSome_of_mem ExtendedInteger.gt
          (fun u => vget safe u) ((entry.1 : Nat) : Int) hmem2 hp2 hne2 none
        rw [hexcl] at hY
        cases hY
    · intro x hx
      cases hx
  | some m =>
    simp only [hexcl]
    refine succFold_pred_mem ExtendedInteger.gt (fun u => vget safe u) (-1)
      (fun x => x.le ((vget vold entry.1).maxE m) = true) ?_ none X ?_ hX
    · intro entry2 hmem2 hp2 _
      by_cases heq : entry2.1 = entry.1
      · rw [heq]
        exact ExtendedInteger.le_trans' (hv entry.1)
          (le_maxE_left (vget vold entry.1) m)
      · have hne2 : ((entry2.1 : Nat) : Int) ≠ ((entry.1 : Nat) : Int) := by
          omega
        have hm := succFold_mem_le_gt (fun u => vget safe u)
          ((entry.1 : Nat) : Int) hmem2 hp2 hne2 none m hexcl
        exact ExtendedInteger.le_trans' hm (le_maxE_right (vget vold entry.1) m)
    · intro x hx
      cases hx

theorem maxOverSuccessors_le_computeSprVal {M : Cmdp} {s : Nat} {a : Int}
    {safe vold : List ExtendedInteger} (hv : vle safe vold) :
    ((costE M s a).add (maxOverSuccessors M s a safe)).le
      (computeSprVal M safe s a vold) = true := by
  unfold computeSprVal costE
  refine ExtendedInteger.add_le_add_left' _ ?_
  unfold overSuccessors overSuccessorsExcl
  cases hinner : succFold ExtendedInteger.lt
      (fun successor => maxOfSos M safe s a vold successor) (-1)
      (M.row s a) none with
  | none =>
    simp only [hinner, Option.getD_none]
    exact ExtendedInteger.le_top' _
  | some r =>
    simp only [hinner, Option.getD_some]
    refine succFold_ge_lt _ _ _ ?_ none r ?_ hinner
    · intro entry hmem hp _
      exact maxOverSuccessors_le_maxOfSos hv hmem hp
    · intro x hx
      cases hx

theorem trunc_le_safeOut {micF : List ExtendedInteger} {relF : Nat → Bool}
    {capacity n : Nat} :
    vle (truncatedVec relF n micF) (safeOut micF relF capacity n) := by
  intro i
  rw [vget_truncatedVec, vget_safeOut]
  by_cases hi : i < n
  · rw [if_pos hi, if_pos hi]
    by_cases hr : relF i = true
    · rw [if_pos hr, if_pos hr]
      exact ExtendedInteger.le_refl' _
    · rw [if_neg hr, if_neg hr]
      by_cases hg : (vget micF i).gt (.fin capacity) = true
      · rw [if_pos hg]
        exact ExtendedInteger.le_top' _
      · rw [if_neg hg]
        exact ExtendedInteger.le_refl' _
  · rw [if_neg hi, if_neg hi]
    exact ExtendedInteger.le_refl' _

theorem micF_le_minSprVal {M : Cmdp} {capacity micFuel relFuel : Nat}
    {micF : List ExtendedInteger} {relF : Nat → Bool}
    {vold : List ExtendedInteger} (hwf : Wf M)
    (hloop : safeLoop M capacity micFuel relFuel M.reload = some (micF, relF))
    (hv : vle (safeOut micF relF capacity M.numStates) vold) {s : Nat}
    (hs : s < M.numStates) :
    (vget micF s).le
      (minSprVal M (safeOut micF relF capacity M.numStates) s vold) = true := by
  obtain ⟨hsub, hmicF, hrem, hcap⟩ := safeLoop_spec hwf _ _ _ _ hloop
  have hfix := computeMinInitCons_fix hmicF
  unfold minSprVal
  refine minAccum_ge _ ?_ _ (ExtendedInteger.le_top' _)
  intro a ha
  have ham := List.mem_range.mp ha
  have hbell := micPass_fix_le_bellman hfix s hs a ham
  refine ExtendedInteger.le_trans' hbell ?_
  refine ExtendedInteger.le_trans' ?_ (maxOverSuccessors_le_computeSprVal hv)
  exact ExtendedInteger.add_le_add_left' _ (maxOverSuccessors_mono trunc_le_safeOut)

theorem safeOut_le_truncEntry {M : Cmdp} {capacity micFuel relFuel : Nat}
    {micF : List ExtendedInteger} {relF : Nat → Bool} (hwf : Wf M)
    (hloop : safeLoop M capacity micFuel relFuel M.reload = some (micF, relF))
    {s : Nat} (hs : s < M.numStates) {x : ExtendedInteger}
    (h1 : (vget micF s).le x = true ∨
      (vget (safeOut micF relF capacity M.numStates) s).le x = true) :
    (vget (safeOut micF relF capacity M.numStates) s).le
      (if x.gt (.fin capacity) then .infinity
       else if M.reload s then .fin 0 else x) = true := by
  obtain ⟨hsub, hmicF, hrem, hcap⟩ := safeLoop_spec hwf _ _ _ _ hloop
  by_cases hgt : x.gt (ExtendedInteger.fin capacity) = true
  · rw [if_pos hgt]
    exact ExtendedInteger.le_top' _
  · rw [if_neg hgt]
    have hxC : x.le (ExtendedInteger.fin capacity) = true := by
      have heq : x.le (ExtendedInteger.fin capacity) =
          !(x.gt (ExtendedInteger.fin capacity)) := rfl
      rw [heq, Bool.eq_false_iff.mpr hgt]
      rfl
    by_cases hrel : M.reload s = true
    · rw [if_pos hrel]
      rw [vget_safeOut, if_pos hs]
      by_cases hr : relF s = true
      · rw [if_pos hr]
        exact ExtendedInteger.le_refl' _
      · exfalso
        have hlt : (ExtendedInteger.fin capacity).lt (vget micF s) = true :=
          hrem s hs hrel (Bool.eq_false_iff.mpr hr)
        rcases h1 with h1 | h1
        · have : (ExtendedInteger.fin capacity).lt
              (ExtendedInteger.fin capacity) = true :=
            ExtendedInteger.lt_of_lt_of_le'
              (ExtendedInteger.lt_of_lt_of_le' hlt h1) hxC
          rw [ExtendedInteger.lt_irrefl'] at this
          cases this
        · have hgt2 : (vget micF s).gt (ExtendedInteger.fin capacity) = true :=
            hlt
          rw [vget_safeOut, if_pos hs, if_neg hr, if_pos hgt2] at h1
          have htop : (ExtendedInteger.inf true).le
              (ExtendedInteger.fin capacity) = true :=
            ExtendedInteger.le_trans' h1 hxC
          simp at htop
    · rw [if_neg hrel]
      rcases h1 with h1 | h1
      · rw [vget_safeOut, if_pos hs]
        have hr : relF s = false := by
          by_cases hr' : relF s = true
          · exact absurd (hsub s hr') hrel
          · exact Bool.eq_false_iff.mpr hr'
        rw [hr]
        simp only [Bool.false_eq_true, if_false]
        by_cases hg : (vget micF s).gt (ExtendedInteger.fin capacity) = true
        · exfalso
          have : (ExtendedInteger.fin capacity).lt
              (ExtendedInteger.fin capacity) = true :=
            ExtendedInteger.lt_of_lt_of_le'
              (ExtendedInteger.lt_of_lt_of_le' hg h1) hxC
          rw [ExtendedInteger.lt_irrefl'] at this
          cases this
        · rw [if_neg hg]
          exact h1
      · exact h1


theorem vget_sprBellman (M : Cmdp) (safe vold : List ExtendedInteger)
    (s : Nat) :
    vget (sprBellman M safe vold) s =
      if s < M.numStates then
        (if M.target s then vget vold s else minSprVal M safe s vold)
      else .infinity := by
  unfold sprBellman
  rw [vget_map_range]

theorem vget_sprTrunc (M : Cmdp) (capacity : Nat) (v : List ExtendedInteger)
    (s : Nat) :
    vget (sprTrunc M capacity v) s =
      if s < M.numStates then
        (if (vget v s).gt (.fin capacity) then .infinity
         else if M.reload s then .fin 0 else vget v s)
      else .infinity := by
  unfold sprTrunc
  rw [vget_map_range]

theorem length_sprIterK (M : Cmdp) (safe : List ExtendedInteger)
    (capacity : Nat) : ∀ k, (sprIterK M safe capacity k).length = M.numStates := by
  intro k
  cases k with
  | zero => simp [sprIterK]
  | succ k => simp [sprIterK, sprPass, sprTrunc]

theorem vget_sprIterK_zero (M : Cmdp) (safe : List ExtendedInteger)
    (capacity : Nat) (s : Nat) :
    vget (sprIterK M safe capacity 0) s =
      if s < M.numStates then
        (if M.target s then vget safe s else .infinity)
      else .infinity := by
  unfold sprIterK
  rw [vget_map_range]

theorem reload_safeOut {M : Cmdp} {capacity micFuel relFuel : Nat}
    {micF : List ExtendedInteger} {relF : Nat → Bool} (hwf : Wf M)
    (hloop : safeLoop M capacity micFuel relFuel M.reload = some (micF, relF))
    {s : Nat} (hs : s < M.numStates) (hrel : M.reload s = true) :
    vget (safeOut micF relF capacity M.numStates) s = .fin 0 ∨
      vget (safeOut micF relF capacity M.numStates) s = .infinity := by
  obtain ⟨hsub, hmicF, hrem, hcap⟩ := safeLoop_spec hwf _ _ _ _ hloop
  rw [vget_safeOut, if_pos hs]
  by_cases hr : relF s = true
  · rw [if_pos hr]
    exact Or.inl rfl
  · rw [if_neg hr]
    have hlt := hrem s hs hrel (Bool.eq_false_iff.mpr hr)
    have hgt : (vget micF s).gt (ExtendedInteger.fin capacity) = true := hlt
    rw [if_pos hgt]
    exact Or.inr rfl

theorem safeOut_le_sprIterK {M : Cmdp} {capacity micFuel relFuel : Nat}
    {micF : List ExtendedInteger} {relF : Nat → Bool} (hwf : Wf M)
    (hloop : safeLoop M capacity micFuel relFuel M.reload = some (micF, relF)) :
    ∀ k, vle (safeOut micF relF capacity M.numStates)
      (sprIterK M (safeOut micF relF capacity M.numStates) capacity k) := by
  intro k
  induction k with
  | zero =>
    intro i
    rw [vget_sprIterK_zero]
    by_cases hi : i < M.numStates
    · rw [if_pos hi]
      by_cases ht : M.target i = true
      · rw [if_pos ht]
        exact ExtendedInteger.le_refl' _
      · rw [if_neg ht]
        exact ExtendedInteger.le_top' _
    · rw [if_neg hi]
      exact ExtendedInteger.le_top' _
  | succ k ih =>
    intro i
    show (vget (safeOut micF relF capacity M.numStates) i).le
      (vget (sprPass M (safeOut micF relF capacity M.numStates) capacity
        (sprIterK M (safeOut micF relF capacity M.numStates) capacity k)) i) = true
    unfold sprPass
    rw [vget_sprTrunc]
    by_cases hi : i < M.numStates
    · rw [if_pos hi]
      rw [vget_sprBellman, if_pos hi]
      by_cases ht : M.target i = true
      · rw [if_pos ht]
        exact safeOut_le_truncEntry hwf hloop hi (Or.inr (ih i))
      · rw [if_neg ht]
        exact safeOut_le_truncEntry hwf hloop hi
          (Or.inl (micF_le_minSprVal hwf hloop ih hi))
    · rw [if_neg hi]
      exact ExtendedInteger.le_top' _

theorem sprIterK_target {M : Cmdp} {capacity micFuel relFuel : Nat}
    {micF : List ExtendedInteger} {relF : Nat → Bool} (hwf : Wf M)
    (hloop : safeLoop M capacity micFuel relFuel M.reload = some (micF, relF)) :
    ∀ k s, s < M.numStates → M.target s = true →
      vget (sprIterK M (safeOut micF relF capacity M.numStates) capacity k) s =
        vget (safeOut micF relF capacity M.numStates) s := by
  have hNNmic : NNVec micF := by
    obtain ⟨hsub, hmicF, hrem, hcap⟩ := safeLoop_spec hwf _ _ _ _ hloop
    exact computeMinInitCons_NN hwf hmicF
  intro k
  induction k with
  | zero =>
    intro s hs ht
    rw [vget_sprIterK_zero, if_pos hs, if_pos ht]
  | succ k ih =>
    intro s hs ht
    show vget (sprTrunc M capacity (sprBellman M
      (safeOut micF relF capacity M.numStates)
      (sprIterK M (safeOut micF relF capacity M.numStates) capacity k))) s = _
    rw [vget_sprTrunc, if_pos hs, vget_sprBellman, if_pos hs, if_pos ht,
      ih s hs ht]
    rcases @safeOut_bound micF relF capacity M.numStates hNNmic s with
      ⟨v, hv, hv0, hvc⟩ | htop
    · rw [hv]
      have hgt : (ExtendedInteger.fin v).gt
          (ExtendedInteger.fin capacity) = false := by
        simp only [ExtendedInteger.gt, ExtendedInteger.lt_fin_fin]
        simp
        omega
      rw [if_neg (by rw [hgt]; exact fun hc => Bool.false_ne_true hc)]
      by_cases hrel : M.reload s = true
      · rw [if_pos hrel]
        rcases reload_safeOut hwf hloop hs hrel with h0 | h0
        · rw [hv] at h0
          rw [← h0]
        · rw [hv] at h0
          cases h0
      · rw [if_neg hrel]
    · rw [htop]
      have hgt : ExtendedInteger.infinity.gt
          (ExtendedInteger.fin capacity) = true := rfl
      rw [if_pos hgt]

theorem sprLoop_unfold (M : Cmdp) (safe : List ExtendedInteger)
    (capacity fuel : Nat) (cs : CounterSelector) (vold : List ExtendedInteger) :
    sprLoop M safe capacity fuel cs vold =
      if vold = sprPass M safe capacity vold then
        some (sprPass M safe capacity vold,
          csUpdate M vold (sprPass M safe capacity vold) (sprA M safe vold) cs)
      else
        match fuel with
        | 0 => none
        | fuel + 1 =>
          sprLoop M safe capacity fuel
            (csUpdate M vold (sprPass M safe capacity vold) (sprA M safe vold) cs)
            (sprPass M safe capacity vold) := by
  cases fuel <;> rfl

theorem sprLoop_isIterate {M : Cmdp} {safe : List ExtendedInteger}
    {capacity : Nat} :
    ∀ fuel cs vold v cs', sprLoop M safe capacity fuel cs vold = some (v, cs') →
      ∃ j, v = (fun u => sprPass M safe capacity u)^[j] vold := by
  intro fuel
  induction fuel with
  | zero =>
    intro cs vold v cs' h
    rw [sprLoop_unfold] at h
    by_cases hfix : vold = sprPass M safe capacity vold
    · rw [if_pos hfix] at h
      simp only [Option.some_inj, Prod.mk.injEq] at h
      exact ⟨1, by rw [← h.1]; rfl⟩
    · rw [if_neg hfix] at h
      cases h
  | succ fuel ih =>
    intro cs vold v cs' h
    rw [sprLoop_unfold] at h
    by_cases hfix : vold = sprPass M safe capacity vold
    · rw [if_pos hfix] at h
      simp only [Option.some_inj, Prod.mk.injEq] at h
      exact ⟨1, by rw [← h.1]; rfl⟩
    · rw [if_neg hfix] at h
      obtain ⟨j, hj⟩ := ih _ _ v cs' h
      exact ⟨j + 1, by rw [Function.iterate_succ_apply]; exact hj⟩

theorem sprIterK_eq_iterate (M : Cmdp) (safe : List ExtendedInteger)
    (capacity : Nat) :
    ∀ k, sprIterK M safe capacity k =
      (fun u => sprPass M safe capacity u)^[k] (sprIterK M safe capacity 0) := by
  intro k
  induction k with
  | zero => rfl
  | succ k ih =>
    show sprPass M safe capacity (sprIterK M safe capacity k) = _
    rw [Function.iterate_succ_apply', ih]

theorem computeSafePr_some {M : Cmdp} {capacity micFuel relFuel prFuel : Nat}
    {pr : List ExtendedInteger × CounterSelector}
    (h : computeSafePr M capacity micFuel relFuel prFuel = some pr) :
    ∃ safe, computeSafe M capacity micFuel relFuel = some safe ∧
      sprLoop M safe capacity prFuel
        (initialCounterSelector M safe (getSafeActions M safe capacity) capacity)
        (sprIterK M safe capacity 0) = some pr := by
  unfold computeSafePr at h
  cases hsafe : computeSafe M capacity micFuel relFuel with
  | none => rw [hsafe] at h; cases h
  | some safe =>
    rw [hsafe] at h
    simp only [Option.pure_def, Option.bind_eq_bind, Option.some_bind] at h
    exact ⟨safe, rfl, h⟩

theorem computeSafePr_fst_isIterK {M : Cmdp}
    {capacity micFuel relFuel prFuel : Nat}
    {pr : List ExtendedInteger × CounterSelector}
    (h : computeSafePr M capacity micFuel relFuel prFuel = some pr) :
    ∃ safe j, computeSafe M capacity micFuel relFuel = some safe ∧
      pr.1 = sprIterK M safe capacity j := by
  obtain ⟨safe, hsafe, hloop⟩ := computeSafePr_some h
  obtain ⟨j, hj⟩ := sprLoop_isIterate prFuel _ _ pr.1 pr.2 (by rw [← hloop])
  exact ⟨safe, j, hsafe, by rw [hj, ← sprIterK_eq_iterate]⟩


theorem maxE_NNE {a b : ExtendedInteger} (ha : NNE a) (hb : NNE b) :
    NNE (a.maxE b) := by
  unfold ExtendedInteger.maxE
  by_cases h : a.lt b = true
  · rw [if_pos h]; exact hb
  · rw [if_neg h]; exact ha

theorem maxOfSos_NNE {M : Cmdp} {safe vold : List ExtendedInteger}
    {s t : Nat} {a : Int} (hsafe : NNVec safe) (hvold : NNVec vold) :
    NNE (maxOfSos M safe s a vold t) := by
  unfold maxOfSos overSuccessorsExcl
  cases hexcl : succFold ExtendedInteger.gt (fun u => vget safe u)
      ((t : Nat) : Int) (M.row s a) none with
  | none =>
    simp only [hexcl]
    exact hvold t
  | some m =>
    simp only [hexcl]
    refine maxE_NNE (hvold t) ?_
    refine succFold_pred ExtendedInteger.gt _ _ NNE (fun u => hsafe u) none m ?_
      hexcl
    intro x hx
    cases hx

theorem computeSprVal_NNE {M : Cmdp} {safe vold : List ExtendedInteger}
    {s : Nat} {a : Nat} (hwf : Wf M) (hs : s < M.numStates)
    (ha : a < M.numActions) (hsafe : NNVec safe) (hvold : NNVec vold) :
    NNE (computeSprVal M safe s (a : Int) vold) := by
  unfold computeSprVal
  refine NNE_add_fin (hwf.1 s hs a ha) ?_
  unfold overSuccessors overSuccessorsExcl
  cases hinner : succFold ExtendedInteger.lt
      (fun successor => maxOfSos M safe s (a : Int) vold successor) (-1)
      (M.row s (a : Int)) none with
  | none =>
    simp only [hinner, Option.getD_none]
    exact NNE_top
  | some r =>
    simp only [hinner, Option.getD_some]
    refine succFold_pred ExtendedInteger.lt _ _ NNE
      (fun u => maxOfSos_NNE hsafe hvold) none r ?_ hinner
    intro x hx
    cases hx

theorem minSprVal_NNE {M : Cmdp} {safe vold : List ExtendedInteger} {s : Nat}
    (hwf : Wf M) (hs : s < M.numStates) (hsafe : NNVec safe)
    (hvold : NNVec vold) : NNE (minSprVal M safe s vold) := by
  unfold minSprVal
  rcases minAccum_cases
    (fun a => computeSprVal M safe s (a : Int) vold)
    (List.range M.numActions) .infinity with hcase | ⟨a, ha, hcase⟩
  · rw [hcase]; exact NNE_top
  · rw [hcase]
    exact computeSprVal_NNE hwf hs (List.mem_range.mp ha) hsafe hvold

theorem sprPass_NN {M : Cmdp} {safe : List ExtendedInteger} {capacity : Nat}
    {vold : List ExtendedInteger} (hwf : Wf M) (hsafe : NNVec safe)
    (hvold : NNVec vold) : NNVec (sprPass M safe capacity vold) := by
  intro i
  unfold sprPass
  rw [vget_sprTrunc]
  by_cases hi : i < M.numStates
  · rw [if_pos hi]
    by_cases hg : (vget (sprBellman M safe vold) i).gt (.fin capacity) = true
    · rw [if_pos hg]; exact NNE_top
    · rw [if_neg hg]
      by_cases hr : M.reload i = true
      · rw [if_pos hr]; simp [NNE]
      · rw [if_neg hr]
        rw [vget_sprBellman, if_pos hi]
        by_cases ht : M.target i = true
        · rw [if_pos ht]; exact hvold i
        · rw [if_neg ht]; exact minSprVal_NNE hwf hi hsafe hvold
  · rw [if_neg hi]; exact NNE_top

theorem sprIterK_NN {M : Cmdp} {safe : List ExtendedInteger} {capacity : Nat}
    (hwf : Wf M) (hsafe : NNVec safe) :
    ∀ k, NNVec (sprIterK M safe capacity k) := by
  intro k
  induction k with
  | zero =>
    intro i
    rw [vget_sprIterK_zero]
    by_cases hi : i < M.numStates
    · rw [if_pos hi]
      by_cases ht : M.target i = true
      · rw [if_pos ht]; exact hsafe i
      · rw [if_neg ht]; exact NNE_top
    · rw [if_neg hi]; exact NNE_top
  | succ k ih => exact sprPass_NN hwf hsafe ih


theorem blockIndex_lt {s n l k : Nat} (hs : s < n) (hl : l < k) :
    s * k + l < n * k := by
  have h1 : s * k + l < s * k + k := by omega
  have h2 : s * k + k = (s + 1) * k := by ring
  have h3 : (s + 1) * k ≤ n * k := Nat.mul_le_mul_right k hs
  omega

theorem block_eq {k : Nat} {s l s2 l2 : Nat} (hl : l < k) (hl2 : l2 < k)
    (h : s * k + l = s2 * k + l2) : s = s2 ∧ l = l2 := by
  have hk : 0 < k := by omega
  have hdiv : ∀ (a b : Nat), b < k → (a * k + b) / k = a := by
    intro a b hb
    rw [Nat.mul_comm a k, Nat.mul_add_div hk, Nat.div_eq_of_lt hb]
    omega
  have hmod : ∀ (a b : Nat), b < k → (a * k + b) % k = b := by
    intro a b hb
    rw [Nat.mul_comm a k, Nat.mul_add_mod, Nat.mod_eq_of_lt hb]
  constructor
  · have := congrArg (fun x => x / k) h
    simpa [hdiv s l hl, hdiv s2 l2 hl2] using this
  · have := congrArg (fun x => x % k) h
    simpa [hmod s l hl, hmod s2 l2 hl2] using this

theorem length_blocks {α : Type} (n k : Nat) (f : Nat → Nat → α) :
    ((List.range n).flatMap (fun s => (List.range k).map (f s))).length =
      n * k := by
  induction n with
  | zero => simp
  | succ n ih =>
    rw [List.range_succ, List.flatMap_append, List.length_append, ih]
    simp [Nat.succ_mul]

theorem getElem?_blocks {α : Type} {n k s l : Nat} (f : Nat → Nat → α)
    (hs : s < n) (hl : l < k) :
    ((List.range n).flatMap (fun s => (List.range k).map (f s)))[s * k + l]? =
      some (f s l) := by
  induction n with
  | zero => omega
  | succ n ih =>
    rw [List.range_succ, List.flatMap_append, List.getElem?_append]
    rcases Nat.lt_or_ge s n with hs2 | hs2
    · rw [if_pos]
      · exact ih hs2
      · rw [length_blocks]
        exact blockIndex_lt hs2 hl
    · have hsn : s = n := by omega
      subst hsn
      rw [if_neg]
      · rw [length_blocks]
        simp only [List.flatMap_cons, List.flatMap_nil, List.append_nil]
        have hidx : s * k + l - s * k = l := by omega
        rw [hidx, List.getElem?_map, List.getElem?_range hl]
        rfl
      · rw [length_blocks]
        omega

theorem enc_toNat (s l C : Nat) :
    (getStateWithBuiltInResourceLevel (s : Int) (l : Int)
      ((C : Int) + 1)).toNat = s * (C + 1) + l := by
  unfold getStateWithBuiltInResourceLevel
  have h : (s : Int) * ((C : Int) + 1) + (l : Int) =
      ((s * (C + 1) + l : Nat) : Int) := by
    push_cast
    ring
  rw [h, Int.toNat_natCast]

theorem getStateWithZeroResource_toNat (n C : Nat) :
    (getStateWithZeroResource (n : Int) (C : Int)).toNat = n * (C + 1) := by
  unfold getStateWithZeroResource getStateWithBuiltInResourceLevel
  have h : ((n : Int) - 1) * ((C : Int) + 1) + ((C : Int) + 1) =
      (n : Int) * ((C : Int) + 1) := by ring
  rw [h]
  have h2 : (n : Int) * ((C : Int) + 1) = ((n * (C + 1) : Nat) : Int) := by
    push_cast
    ring
  rw [h2, Int.toNat_natCast]

theorem length_getTransitionMatrixRows (cs : CounterSelector) (M : Cmdp)
    (capacity : Nat) :
    (getTransitionMatrixRows cs M capacity).length =
      M.numStates * (capacity + 1) + 1 := by
  unfold getTransitionMatrixRows
  rw [List.length_append, length_blocks]
  rfl

theorem getTransitionMatrixRows_getD (cs : CounterSelector) (M : Cmdp)
    (capacity : Nat) {s l : Nat} (hs : s < M.numStates) (hl : l ≤ capacity) :
    (getTransitionMatrixRows cs M capacity).getD (s * (capacity + 1) + l) [] =
      prodRowFor cs M capacity s l := by
  unfold getTransitionMatrixRows
  rw [List.getD_eq_getElem?_getD, List.getElem?_append]
  rw [if_pos]
  · rw [getElem?_blocks _ hs (by omega)]
    rfl
  · rw [length_blocks]
    exact blockIndex_lt hs (by omega)

theorem getTransitionMatrixRows_sink (cs : CounterSelector) (M : Cmdp)
    (capacity : Nat) :
    (getTransitionMatrixRows cs M capacity).getD
        (M.numStates * (capacity + 1)) [] =
      [((getStateWithZeroResource M.numStates capacity).toNat, (1 : Rat))] := by
  unfold getTransitionMatrixRows
  rw [List.getD_eq_getElem?_getD, List.getElem?_append]
  rw [if_neg]
  · rw [length_blocks]
    simp
  · rw [length_blocks]
    omega

theorem getD_labelFold (M : Cmdp) (capacity : Nat) :
    ∀ (pairs : List (Nat × Nat)) (init : List Bool) (q : Nat),
      (pairs.foldl
        (fun lab p =>
          if M.target p.1 then
            lab.set
              (getStateWithBuiltInResourceLevel p.1 p.2
                ((capacity : Int) + 1)).toNat true
          else lab) init).getD q false =
      (init.getD q false ||
        pairs.any (fun p => M.target p.1 &&
          ((getStateWithBuiltInResourceLevel p.1 p.2
            ((capacity : Int) + 1)).toNat == q) &&
          decide (q < init.length))) := by
  intro pairs
  induction pairs with
  | nil =>
    intro init q
    simp
  | cons p ps ih =>
    intro init q
    rw [List.foldl_cons, List.any_cons]
    have hlen : (if M.target p.1 then
        init.set (getStateWithBuiltInResourceLevel p.1 p.2
          ((capacity : Int) + 1)).toNat true
      else init).length = init.length := by
      by_cases ht : M.target p.1 = true
      · rw [if_pos ht, List.length_set]
      · rw [if_neg ht]
    rw [ih, hlen]
    by_cases ht : M.target p.1 = true
    · rw [if_pos ht] at *
      simp only [ht, Bool.true_and]
      by_cases he : (getStateWithBuiltInResourceLevel p.1 p.2
          ((capacity : Int) + 1)).toNat = q
      · by_cases hq : q < init.length
        · rw [List.getD_eq_getElem?_getD, List.getElem?_set, if_pos he,
            he, if_pos hq]
          simp [he, hq]
        · rw [List.getD_eq_getElem?_getD, List.getElem?_set, if_pos he,
            he, if_neg hq]
          have hinit : init.getD q false = false := by
            rw [List.getD_eq_getElem?_getD, List.getElem?_eq_none (by omega)]
            rfl
          rw [hinit]
          simp [he, hq]
      · rw [List.getD_eq_getElem?_getD, List.getElem?_set, if_neg he,
          ← List.getD_eq_getElem?_getD]
        have hbe : ((getStateWithBuiltInResourceLevel p.1 p.2
            ((capacity : Int) + 1)).toNat == q) = false :=
          beq_eq_false_iff_ne.mpr he
        simp [hbe, Bool.or_assoc]
    · rw [if_neg ht] at *
      have ht2 : M.target p.1 = false := Bool.eq_false_iff.mpr ht
      simp [ht2, Bool.or_assoc]

theorem getStateLabelling_getD (M : Cmdp) (capacity : Nat) {s l : Nat}
    (hs : s < M.numStates) (hl : l ≤ capacity) :
    (getStateLabelling M capacity).getD (s * (capacity + 1) + l) false =
      M.target s := by
  unfold getStateLabelling
  rw [getD_labelFold]
  have hinit : (List.replicate (M.numStates * (capacity + 1) + 1)
      false).getD (s * (capacity + 1) + l) false = false := by
    rw [List.getD_eq_getElem?_getD, List.getElem?_replicate]
    by_cases h : s * (capacity + 1) + l < M.numStates * (capacity + 1) + 1 <;>
      simp [h]
  rw [hinit, Bool.false_or, List.length_replicate]
  have hqlt : s * (capacity + 1) + l < M.numStates * (capacity + 1) + 1 := by
    have := blockIndex_lt hs (show l < capacity + 1 by omega)
    omega
  cases htarget : M.target s with
  | true =>
    rw [List.any_eq_true]
    refine ⟨(s, l), ?_, ?_⟩
    · rw [List.mem_flatMap]
      exact ⟨s, List.mem_range.mpr hs,
        List.mem_map.mpr ⟨l, List.mem_range.mpr (by omega), rfl⟩⟩
    · simp only [htarget, Bool.true_and, Bool.and_eq_true, beq_iff_eq,
        decide_eq_true_eq]
      exact ⟨enc_toNat s l capacity, hqlt⟩
  | false =>
    rw [Bool.eq_false_iff]
    intro hany
    rw [List.any_eq_true] at hany
    obtain ⟨p, hmem, hp⟩ := hany
    rw [List.mem_flatMap] at hmem
    obtain ⟨s2, hs2, hmem2⟩ := hmem
    rw [List.mem_map] at hmem2
    obtain ⟨l2, hl2, hpl⟩ := hmem2
    subst hpl
    simp only [Bool.and_eq_true, beq_iff_eq, decide_eq_true_eq] at hp
    obtain ⟨⟨hpt, hpe⟩, _⟩ := hp
    rw [enc_toNat] at hpe
    obtain ⟨hseq, hleq⟩ := block_eq (List.mem_range.mp hl2)
      (show l < capacity + 1 by omega) hpe
    rw [hseq] at hpt
    rw [htarget] at hpt
    cases hpt

theorem getStateLabelling_length (M : Cmdp) (capacity : Nat) :
    (getStateLabelling M capacity).length =
      M.numStates * (capacity + 1) + 1 := by
  unfold getStateLabelling
  have hfold : ∀ (pairs : List (Nat × Nat)) (init : List Bool),
      (pairs.foldl
        (fun lab p =>
          if M.target p.1 then
            lab.set
              (getStateWithBuiltInResourceLevel p.1 p.2
                ((capacity : Int) + 1)).toNat true
          else lab) init).length = init.length := by
    intro pairs
    induction pairs with
    | nil => intro init; rfl
    | cons p ps ih =>
      intro init
      rw [List.foldl_cons, ih]
      by_cases ht : M.target p.1 = true
      · rw [if_pos ht, List.length_set]
      · rw [if_neg ht]
  rw [hfold, List.length_replicate]

theorem getStateLabelling_sink (M : Cmdp) (capacity : Nat) :
    (getStateLabelling M capacity).getD
      (M.numStates * (capacity + 1)) false = false := by
  unfold getStateLabelling
  rw [getD_labelFold]
  have hinit : (List.replicate (M.numStates * (capacity + 1) + 1)
      false).getD (M.numStates * (capacity + 1)) false = false := by
    rw [List.getD_eq_getElem?_getD, List.getElem?_replicate]
    simp
  rw [hinit, Bool.false_or]
  rw [Bool.eq_false_iff]
  intro hany
  rw [List.any_eq_true] at hany
  obtain ⟨p, hmem, hp⟩ := hany
  rw [List.mem_flatMap] at hmem
  obtain ⟨s2, hs2, hmem2⟩ := hmem
  rw [List.mem_map] at hmem2
  obtain ⟨l2, hl2, hpl⟩ := hmem2
  subst hpl
  simp only [Bool.and_eq_true, beq_iff_eq, decide_eq_true_eq] at hp
  obtain ⟨⟨hpt, hpe⟩, _⟩ := hp
  rw [enc_toNat] at hpe
  have := blockIndex_lt (List.mem_range.mp hs2) (List.mem_range.mp hl2)
  omega


theorem validateStep_ceb {oracle : ReachabilityOracle} {cs : CounterSelector}
    {M : Cmdp} {safePr : List ExtendedInteger} {capacity : Nat}
    {acc : Bool × Bool × Bool} (h : acc.2.2 = true) (s : Nat) :
    validateStep oracle cs M safePr capacity acc s = acc := by
  unfold validateStep
  rw [if_pos h]

theorem validateStep_run {oracle : ReachabilityOracle} {cs : CounterSelector}
    {M : Cmdp} {safePr : List ExtendedInteger} {capacity : Nat}
    {acc : Bool × Bool × Bool} (h : acc.2.2 = false) (s : Nat) :
    validateStep oracle cs M safePr capacity acc s =
      (let acc1 :=
        if (vget safePr s).lt .infinity then
          ((if oracle.probTarget (getTransitionMatrixRows cs M capacity)
              (getStateLabelling M capacity)
              (validatorIndex safePr capacity s) ≤ 0
            then false else acc.1),
           (if !(oracle.neverReach (getTransitionMatrixRows cs M capacity)
              (getStateWithZeroResource M.numStates capacity)
              (validatorIndex safePr capacity s))
            then false else acc.2.1))
        else (acc.1, acc.2.1)
       (acc1.1, acc1.2, !acc1.1 && !acc1.2)) := by
  unfold validateStep validatorIndex
  rw [if_neg]
  rw [h]
  exact Bool.false_ne_true

theorem validateFold_false1 {oracle : ReachabilityOracle}
    {cs : CounterSelector} {M : Cmdp} {safePr : List ExtendedInteger}
    {capacity : Nat} :
    ∀ (L : List Nat) (acc : Bool × Bool × Bool), acc.1 = false →
      (L.foldl (validateStep oracle cs M safePr capacity) acc).1 = false := by
  intro L
  induction L with
  | nil => intro acc h; exact h
  | cons s L ih =>
    intro acc h
    rw [List.foldl_cons]
    by_cases hceb : acc.2.2 = true
    · rw [validateStep_ceb hceb]
      exact ih acc h
    · rw [validateStep_run (Bool.eq_false_iff.mpr hceb)]
      apply ih
      by_cases hq : (vget safePr s).lt (ExtendedInteger.inf true) = true
      · by_cases hT : oracle.probTarget (getTransitionMatrixRows cs M capacity)
            (getStateLabelling M capacity)
            (validatorIndex safePr capacity s) ≤ 0 <;>
          simp [hq, hT, h]
      · simp [hq, h]

theorem validateFold_false2 {oracle : ReachabilityOracle}
    {cs : CounterSelector} {M : Cmdp} {safePr : List ExtendedInteger}
    {capacity : Nat} :
    ∀ (L : List Nat) (acc : Bool × Bool × Bool), acc.2.1 = false →
      (L.foldl (validateStep oracle cs M safePr capacity) acc).2.1 = false := by
  intro L
  induction L with
  | nil => intro acc h; exact h
  | cons s L ih =>
    intro acc h
    rw [List.foldl_cons]
    by_cases hceb : acc.2.2 = true
    · rw [validateStep_ceb hceb]
      exact ih acc h
    · rw [validateStep_run (Bool.eq_false_iff.mpr hceb)]
      apply ih
      by_cases hq : (vget safePr s).lt (ExtendedInteger.inf true) = true
      · by_cases hR : oracle.neverReach (getTransitionMatrixRows cs M capacity)
            (getStateWithZeroResource M.numStates capacity)
            (validatorIndex safePr capacity s) = true <;>
          simp [hq, hR, h]
      · simp [hq, h]

theorem validateFold_iff {oracle : ReachabilityOracle} {cs : CounterSelector}
    {M : Cmdp} {safePr : List ExtendedInteger} {capacity : Nat} :
    ∀ (L : List Nat) (acc : Bool × Bool × Bool),
      (acc.2.2 = true → acc.1 = false ∧ acc.2.1 = false) →
      (((L.foldl (validateStep oracle cs M safePr capacity) acc).1 &&
        (L.foldl (validateStep oracle cs M safePr capacity) acc).2.1) = true ↔
        ((acc.1 && acc.2.1) = true ∧
          ∀ s ∈ L, (vget safePr s).lt .infinity = true →
            validatorChecksOk oracle cs M safePr capacity s)) := by
  intro L
  induction L with
  | nil =>
    intro acc _
    simp
  | cons s L ih =>
    intro acc hinv
    rw [List.foldl_cons, List.forall_mem_cons]
    by_cases hceb : acc.2.2 = true
    · obtain ⟨h1, h2⟩ := hinv hceb
      rw [validateStep_ceb hceb, ih acc hinv]
      simp [h1]
    · rw [validateStep_run (Bool.eq_false_iff.mpr hceb)]
      set pT := oracle.probTarget (getTransitionMatrixRows cs M capacity)
        (getStateLabelling M capacity) (validatorIndex safePr capacity s)
      set nR := oracle.neverReach (getTransitionMatrixRows cs M capacity)
        (getStateWithZeroResource M.numStates capacity)
        (validatorIndex safePr capacity s)
      by_cases hq : (vget safePr s).lt (ExtendedInteger.inf true) = true
      · by_cases hT : pT ≤ 0
        · have hL1 : (List.foldl (validateStep oracle cs M safePr capacity)
              (let acc1 :=
                if (vget safePr s).lt .infinity then
                  ((if pT ≤ 0 then false else acc.1),
                   (if !nR then false else acc.2.1))
                else (acc.1, acc.2.1)
               (acc1.1, acc1.2, !acc1.1 && !acc1.2)) L).1 = false := by
            apply validateFold_false1
            simp [hq, hT]
          constructor
          · intro h
            exfalso
            rw [Bool.and_eq_true] at h
            rw [hL1] at h
            exact Bool.false_ne_true h.1
          · rintro ⟨_, hcheck, _⟩
            exfalso
            exact absurd (hcheck hq).1 (not_lt.mpr hT)
        · by_cases hR : nR = true
          · have hstep : (let acc1 :=
                if (vget safePr s).lt .infinity then
                  ((if pT ≤ 0 then false else acc.1),
                   (if !nR then false else acc.2.1))
                else (acc.1, acc.2.1)
               (acc1.1, acc1.2, !acc1.1 && !acc1.2)) =
                (acc.1, acc.2.1, !acc.1 && !acc.2.1) := by
              simp [hq, hT, hR]
            rw [hstep]
            have hinv2 : ((acc.1, acc.2.1, !acc.1 && !acc.2.1) :
                Bool × Bool × Bool).2.2 = true →
                ((acc.1, acc.2.1, !acc.1 && !acc.2.1) :
                Bool × Bool × Bool).1 = false ∧
                ((acc.1, acc.2.1, !acc.1 && !acc.2.1) :
                Bool × Bool × Bool).2.1 = false := by
              intro h
              simp at h
              simp [h]
            rw [ih _ hinv2]
            have hok : validatorChecksOk oracle cs M safePr capacity s := by
              constructor
              · exact not_le.mp hT
              · exact hR
            constructor
            · rintro ⟨h1, h2⟩
              exact ⟨h1, fun _ => hok, h2⟩
            · rintro ⟨h1, _, h2⟩
              exact ⟨h1, h2⟩
          · have hL2 : (List.foldl (validateStep oracle cs M safePr capacity)
                (let acc1 :=
                  if (vget safePr s).lt .infinity then
                    ((if pT ≤ 0 then false else acc.1),
                     (if !nR then false else acc.2.1))
                  else (acc.1, acc.2.1)
                 (acc1.1, acc1.2, !acc1.1 && !acc1.2)) L).2.1 = false := by
              apply validateFold_false2
              simp [hq, hR]
            constructor
            · intro h
              exfalso
              rw [Bool.and_eq_true] at h
              rw [hL2] at h
              exact Bool.false_ne_true h.2
            · rintro ⟨_, hcheck, _⟩
              exact absurd (hcheck hq).2 hR
      · have hstep : (let acc1 :=
            if (vget safePr s).lt .infinity then
              ((if pT ≤ 0 then false else acc.1),
               (if !nR then false else acc.2.1))
            else (acc.1, acc.2.1)
           (acc1.1, acc1.2, !acc1.1 && !acc1.2)) =
            (acc.1, acc.2.1, !acc.1 && !acc.2.1) := by
          simp [hq]
        rw [hstep]
        have hinv2 : ((acc.1, acc.2.1, !acc.1 && !acc.2.1) :
            Bool × Bool × Bool).2.2 = true →
            ((acc.1, acc.2.1, !acc.1 && !acc.2.1) :
            Bool × Bool × Bool).1 = false ∧
            ((acc.1, acc.2.1, !acc.1 && !acc.2.1) :
            Bool × Bool × Bool).2.1 = false := by
          intro h
          simp at h
          simp [h]
        rw [ih _ hinv2]
        constructor
        · rintro ⟨h1, h2⟩
          exact ⟨h1, fun hc => absurd hc hq, h2⟩
        · rintro ⟨h1, _, h2⟩
          exact ⟨h1, h2⟩


theorem exampleChain_wf : Wf exampleChain := ⟨by decide, by decide⟩

theorem exampleTwoReloads_wf : Wf exampleTwoReloads := ⟨by decide, by decide⟩

theorem exampleAlias_wf : Wf exampleAlias := ⟨by decide, by decide⟩

theorem exampleNoTarget_wf : Wf exampleNoTarget := ⟨by decide, by decide⟩

/-- C9: A default-constructed ExtendedInteger value equals +infinity.
The default constructor itself is modelled from the spec (see
`ExtendedInteger.defaultConstructed`); the spec chooses +infinity so that
minimisation accumulators start at top. -/
theorem defaultConstructed_eq_infinity :
    ExtendedInteger.defaultConstructed = ExtendedInteger.infinity := rfl

/-- C7: ExtendedInteger addition fails (throws, modelled as `none`) exactly
when both operands are infinite with opposite signs; on finite operands it
is integer addition; +infinity propagates over finite operands and over
itself; 0 is a two-sided identity; and addition is commutative (on the
constructible values, where infinite values are determined by their sign,
commutativity even holds for the thrown case, both sides being `none`). -/
theorem addOpt_laws :
    (∀ a b : ExtendedInteger, ExtendedInteger.addOpt a b = none ↔
      a.isInfinite = true ∧ b.isInfinite = true ∧ a.sign ≠ b.sign) ∧
    (∀ v w : Int,
      ExtendedInteger.addOpt (.fin v) (.fin w) = some (.fin (v + w))) ∧
    (∀ v : Int,
      ExtendedInteger.addOpt (.fin v) ExtendedInteger.infinity =
        some ExtendedInteger.infinity ∧
      ExtendedInteger.addOpt ExtendedInteger.infinity (.fin v) =
        some ExtendedInteger.infinity) ∧
    (ExtendedInteger.addOpt ExtendedInteger.infinity ExtendedInteger.infinity =
      some ExtendedInteger.infinity) ∧
    (∀ b : ExtendedInteger, ExtendedInteger.addOpt (.fin 0) b = some b ∧
      ExtendedInteger.addOpt b (.fin 0) = some b) ∧
    (∀ a b : ExtendedInteger,
      ExtendedInteger.addOpt a b = ExtendedInteger.addOpt b a) := by
  refine ⟨?_, ?_, ?_, ?_, ?_, ?_⟩
  · intro a b
    rcases a with v | (_ | _) <;> rcases b with w | (_ | _) <;>
      simp [ExtendedInteger.addOpt, ExtendedInteger.isInfinite,
        ExtendedInteger.sign]
  · intro v w
    rfl
  · intro v
    exact ⟨rfl, rfl⟩
  · rfl
  · intro b
    rcases b with w | (_ | _) <;> constructor <;>
      simp [ExtendedInteger.addOpt, ExtendedInteger.isInfinite]
  · intro a b
    rcases a with v | (_ | _) <;> rcases b with w | (_ | _) <;>
      simp [ExtendedInteger.addOpt, ExtendedInteger.isInfinite,
        ExtendedInteger.sign] <;> omega

/-- C8: on a well-formed CMDP, for any reload set, each pass of the
`computeMinInitCons` loop moves the approximation only downwards, the loop
reaches its fixpoint after finitely many passes (for sufficient fuel the
embedded loop returns a value, which corresponds to termination of the C++
do/while loop), and the returned vector does not depend on the fuel, so
the computation is a total function of the CMDP and the reload set. -/
theorem computeMinInitCons_total (M : Cmdp) (hwf : Wf M) (R : Nat → Bool) :
    (∀ k, vle (micIterK M R (k + 1)) (micIterK M R k)) ∧
    (∃ fuel w, computeMinInitCons M R fuel = some w) ∧
    (∀ f g v w, computeMinInitCons M R f = some v →
      computeMinInitCons M R g = some w → v = w) := by
  refine ⟨micIterK_antitone M R, computeMinInitCons_terminates hwf R, ?_⟩
  intro f g v w h h2
  exact micLoop_unique h h2

/-- Witness for C8 at the concrete two-state chain. -/
theorem computeMinInitCons_total_witness :
    ∃ fuel w, computeMinInitCons exampleChain exampleChain.reload fuel =
      some w :=
  (computeMinInitCons_total exampleChain exampleChain_wf exampleChain.reload).2.1

/-- C6: the invalid-argument branch of ExtendedInteger addition is
unreachable from the core computations: an addition fails only when one
operand is -infinity; every addition performed by the core has the finite
value `cost(s, a)` as its left operand and hence always succeeds; and no
intermediate vector entry of `computeMinInitCons` (any reload set, any
number of passes), of the result of `computeSafe`, or of the
`computeSafePr` value iteration is ever -infinity. -/
theorem core_no_invalid_addition (M : Cmdp) (hwf : Wf M) :
    (∀ a b : ExtendedInteger, ExtendedInteger.addOpt a b = none →
      a = .inf false ∨ b = .inf false) ∧
    (∀ (v : Int) (x : ExtendedInteger),
      (ExtendedInteger.addOpt (.fin v) x).isSome = true) ∧
    (∀ (R : Nat → Bool) (k i : Nat),
      NNE (vget (micIterK M R k) i) ∧
        vget (micIterK M R k) i ≠ .inf false) ∧
    (∀ capacity micFuel relFuel safe,
      computeSafe M capacity micFuel relFuel = some safe →
      (∀ i, NNE (vget safe i) ∧ vget safe i ≠ .inf false) ∧
      (∀ k i, NNE (vget (sprIterK M safe capacity k) i) ∧
        vget (sprIterK M safe capacity k) i ≠ .inf false)) := by
  refine ⟨?_, ?_, ?_, ?_⟩
  · intro a b h
    rcases a with v | (_ | _) <;> rcases b with w | (_ | _) <;>
      simp_all [ExtendedInteger.addOpt, ExtendedInteger.isInfinite,
        ExtendedInteger.sign]
  · intro v x
    rcases x with w | (_ | _) <;> rfl
  · intro R k i
    have h := @micIterK_NN M R hwf k i
    exact ⟨h, NNE_not_neg_inf h⟩
  · intro capacity micFuel relFuel safe hsafe
    obtain ⟨micF, relF, hloop, hout⟩ := computeSafe_some hsafe
    obtain ⟨hsub, hmicF, hrem, hcap⟩ := safeLoop_spec hwf _ _ _ _ hloop
    have hNNmic : NNVec micF := computeMinInitCons_NN hwf hmicF
    have hNNsafe : NNVec safe := by
      rw [hout]
      exact safeOut_NN hNNmic
    constructor
    · intro i
      exact ⟨hNNsafe i, NNE_not_neg_inf (hNNsafe i)⟩
    · intro k i
      have h := @sprIterK_NN M safe capacity hwf hNNsafe k i
      exact ⟨h, NNE_not_neg_inf h⟩

/-- Witness for C6 at the concrete two-state chain. -/
theorem core_no_invalid_addition_witness :
    NNE (vget (micIterK exampleChain exampleChain.reload 2) 0) ∧
      vget (micIterK exampleChain exampleChain.reload 2) 0 ≠
        ExtendedInteger.inf false :=
  (core_no_invalid_addition exampleChain exampleChain_wf).2.2.1
    exampleChain.reload 2 0


/-- C10: the verdict of `validateCounterSelector` depends on the
indeterminate initial value of the uninitialised local flag
`counterExampleForBoth` (read in the loop guard before its first
assignment): on a one-state CMDP with no target state, the intended run
(initial value false) returns false, while initial value true makes every
loop iteration exit early and the function returns true. -/
theorem validateCounterSelector_flag_dependent :
    validateCounterSelector exampleNoTargetOracle true (emptySelector 1 0)
        exampleNoTarget [ExtendedInteger.fin 0] 0 = true ∧
    validateCounterSelector exampleNoTargetOracle false (emptySelector 1 0)
        exampleNoTarget [ExtendedInteger.fin 0] 0 = false ∧
    0 < exampleNoTarget.numStates := by
  refine ⟨rfl, rfl, by decide⟩

/-- Counterexample to C1 as stated: with capacity 0 and SafePR = [0, 1],
state 1 has SafePR(1) = 1 > 0, so the claim exempts it, yet the code's
guard `SafePR(s) < infinity` still inspects it; the product index it reads,
1*(0+1)+1 = 2, is the sink, whose target-probability is 0, so the validator
returns false although every state with SafePR(s) ≤ C passes both checks. -/
theorem validate_guard_counterexample :
    ¬ (validateCounterSelector exampleAliasOracle false (emptySelector 2 0)
          exampleAlias [ExtendedInteger.fin 0, ExtendedInteger.fin 1] 0 =
            true ↔
        ∀ s, s < exampleAlias.numStates →
          (vget [ExtendedInteger.fin 0, ExtendedInteger.fin 1] s).le
            (ExtendedInteger.fin 0) = true →
          validatorChecksOk exampleAliasOracle (emptySelector 2 0)
            exampleAlias [ExtendedInteger.fin 0, ExtendedInteger.fin 1]
            0 s) := by
  decide

/-- C1 (amended): taking the uninitialised early-exit flag as false (the
value under which the loop actually runs, cf. C10), the validator returns
true iff both oracle checks hold at every state whose SafePR entry is
finite: the code's guard is `SafePR(s) < infinity`, not `SafePR(s) ≤ C`.
Under the extra hypothesis that each SafePR entry is +infinity or a finite
value in [0, C], the two guards coincide and the claim's reading is
recovered; without it the two sides differ (see
`validate_guard_counterexample`). -/
theorem validateCounterSelector_iff_checks (oracle : ReachabilityOracle)
    (cs : CounterSelector) (M : Cmdp) (safePr : List ExtendedInteger)
    (capacity : Nat)
    (hvals : ∀ s, s < M.numStates →
      vget safePr s = ExtendedInteger.infinity ∨
      ∃ v : Int, vget safePr s = .fin v ∧ 0 ≤ v ∧ v ≤ (capacity : Int)) :
    validateCounterSelector oracle false cs M safePr capacity = true ↔
      ∀ s, s < M.numStates →
        (vget safePr s).le (.fin (capacity : Int)) = true →
        validatorChecksOk oracle cs M safePr capacity s := by
  have hfold := @validateFold_iff oracle cs M safePr capacity
    (List.range M.numStates) ((true, true, false) : Bool × Bool × Bool)
    (fun h => absurd h (by decide))
  have heq : validateCounterSelector oracle false cs M safePr capacity =
      (((List.range M.numStates).foldl
          (validateStep oracle cs M safePr capacity)
          (true, true, false)).1 &&
        ((List.range M.numStates).foldl
          (validateStep oracle cs M safePr capacity)
          (true, true, false)).2.1) := rfl
  rw [heq, hfold]
  constructor
  · rintro ⟨-, h⟩ s hs hle
    rcases hvals s hs with htop | ⟨v, hv, h0, hC⟩
    · rw [htop] at hle
      simp at hle
    · refine h s (List.mem_range.mpr hs) ?_
      simp [hv]
  · intro h
    refine ⟨by decide, ?_⟩
    intro s hmem hlt
    have hs := List.mem_range.mp hmem
    rcases hvals s hs with htop | ⟨v, hv, h0, hC⟩
    · rw [htop] at hlt
      simp at hlt
    · refine h s hs ?_
      simp [hv, hC]

/-- Witness for C1 at the aliasing example with a SafePR vector whose
entries lie in [0, C] ∪ {+infinity}. -/
theorem validateCounterSelector_iff_checks_witness :
    validateCounterSelector exampleAliasOracle false (emptySelector 2 0)
      exampleAlias [ExtendedInteger.fin 0, ExtendedInteger.inf true] 0 =
      true := by
  refine (validateCounterSelector_iff_checks exampleAliasOracle
    (emptySelector 2 0) exampleAlias
    [ExtendedInteger.fin 0, ExtendedInteger.inf true] 0 ?_).mpr ?_
  · intro s hs
    match s, hs with
    | 0, _ => exact Or.inr ⟨0, rfl, by decide, by decide⟩
    | 1, _ => exact Or.inl rfl
  · intro s hs hle
    match s, hs with
    | 0, _ =>
      exact ⟨by decide, by decide⟩
    | 1, _ =>
      exact absurd hle (by decide)


/-- Counterexample to C2 as stated: in the well-formed CMDP
`exampleTwoReloads` (two reload states exchanging places at cost 1, so
MinInitCons is 1 at both states) with capacity 5, `computeSafe` overwrites
every surviving reload state with 0, so Safe = [0, 0] and
MinInitCons(0) ≤ Safe(0) fails. -/
theorem minInitCons_le_safe_counterexample :
    Wf exampleTwoReloads ∧
    computeMinInitCons exampleTwoReloads exampleTwoReloads.reload 10 =
      some [ExtendedInteger.fin 1, ExtendedInteger.fin 1] ∧
    computeSafe exampleTwoReloads 5 10 10 =
      some [ExtendedInteger.fin 0, ExtendedInteger.fin 0] ∧
    ¬ ((vget [ExtendedInteger.fin 1, ExtendedInteger.fin 1] 0).le
        (vget [ExtendedInteger.fin 0, ExtendedInteger.fin 0] 0) = true) :=
  ⟨exampleTwoReloads_wf, by decide, by decide, by decide⟩

/-- C2 (amended): for a well-formed CMDP the chain
MinInitCons(s) ≤ Safe(s) ≤ SafePR(s) holds at every NON-RELOAD state; at
reload states `computeSafe` resets the value to 0, which can drop below
MinInitCons (see `minInitCons_le_safe_counterexample`), while the second
inequality Safe(s) ≤ SafePR(s) holds at every state. -/
theorem minInitCons_safe_safePr_chain (M : Cmdp)
    (micFuel0 capacity micFuel relFuel prFuel : Nat)
    (mic safe : List ExtendedInteger)
    (pr : List ExtendedInteger × CounterSelector) (hwf : Wf M)
    (hmic : computeMinInitCons M M.reload micFuel0 = some mic)
    (hsafe : computeSafe M capacity micFuel relFuel = some safe)
    (hpr : computeSafePr M capacity micFuel relFuel prFuel = some pr) :
    ∀ s, s < M.numStates →
      (M.reload s = false → (vget mic s).le (vget safe s) = true) ∧
      (vget safe s).le (vget pr.1 s) = true := by
  obtain ⟨micF, relF, hloop, hout⟩ := computeSafe_some hsafe
  obtain ⟨hsub, hmicF, hrem, hcap⟩ := safeLoop_spec hwf _ _ _ _ hloop
  have hmono : vle mic micF :=
    computeMinInitCons_mono_R hwf hsub hmic hmicF
  obtain ⟨safe2, j, hsafe2, hpr1⟩ := computeSafePr_fst_isIterK hpr
  rw [hsafe] at hsafe2
  have hsafe_eq : safe2 = safe := (Option.some_inj.mp hsafe2).symm
  rw [hsafe_eq] at hpr1
  intro s hs
  constructor
  · intro hnr
    rw [hout, vget_safeOut, if_pos hs]
    have hrF : relF s = false := by
      cases hF : relF s
      · rfl
      · rw [hsub s hF] at hnr
        cases hnr
    rw [if_neg (by simp [hrF])]
    by_cases hg : (vget micF s).gt (.fin capacity) = true
    · rw [if_pos hg]
      exact ExtendedInteger.le_top' _
    · rw [if_neg hg]
      exact hmono s
  · rw [hpr1]
    have h := safeOut_le_sprIterK hwf hloop j s
    rw [← hout] at h
    exact h

/-- Witness for C2 at the two-state chain with capacity 3. -/
theorem minInitCons_safe_safePr_chain_witness :
    (exampleChain.reload 0 = false →
      (vget [ExtendedInteger.fin 2, ExtendedInteger.fin 0] 0).le
        (vget [ExtendedInteger.fin 2, ExtendedInteger.fin 0] 0) = true) ∧
    (vget [ExtendedInteger.fin 2, ExtendedInteger.fin 0] 0).le
      (vget ([ExtendedInteger.fin 2, ExtendedInteger.fin 0],
        ([[-1, -1, 0, -1], [0, -1, -1, -1]] : CounterSelector)).1 0) =
        true :=
  minInitCons_safe_safePr_chain exampleChain 10 3 10 10 10
    [ExtendedInteger.fin 2, ExtendedInteger.fin 0]
    [ExtendedInteger.fin 2, ExtendedInteger.fin 0]
    ([ExtendedInteger.fin 2, ExtendedInteger.fin 0],
      [[-1, -1, 0, -1], [0, -1, -1, -1]])
    exampleChain_wf (by decide) (by decide) (by decide) 0 (by decide)

/-- C3: `computeSafe` returns the final MinInitCons vector of the pruning
loop with reload states of the final pruned reload set reset to 0 and
finite values exceeding the capacity replaced by +infinity; consequently
every entry is a finite integer in [0, C] or +infinity. -/
theorem computeSafe_spec (M : Cmdp) (capacity micFuel relFuel : Nat)
    (safe : List ExtendedInteger) (hwf : Wf M)
    (hsafe : computeSafe M capacity micFuel relFuel = some safe) :
    ∃ micF relF,
      safeLoop M capacity micFuel relFuel M.reload = some (micF, relF) ∧
      computeMinInitCons M relF micFuel = some micF ∧
      ∀ s, s < M.numStates →
        (vget safe s =
          if relF s then ExtendedInteger.fin 0
          else if (ExtendedInteger.fin capacity).lt (vget micF s) then
            ExtendedInteger.infinity
          else vget micF s) ∧
        ((∃ v : Int, vget safe s = .fin v ∧ 0 ≤ v ∧ v ≤ (capacity : Int)) ∨
          vget safe s = ExtendedInteger.infinity) := by
  obtain ⟨micF, relF, hloop, hout⟩ := computeSafe_some hsafe
  obtain ⟨hsub, hmicF, hrem, hcap⟩ := safeLoop_spec hwf _ _ _ _ hloop
  have hNNmic : NNVec micF := computeMinInitCons_NN hwf hmicF
  refine ⟨micF, relF, hloop, hmicF, ?_⟩
  intro s hs
  constructor
  · rw [hout, vget_safeOut, if_pos hs]
    rfl
  · rw [hout]
    exact safeOut_bound hNNmic s

/-- Witness for C3 at the two-state chain with capacity 3. -/
theorem computeSafe_spec_witness :
    ∃ micF relF,
      safeLoop exampleChain 3 10 10 exampleChain.reload =
        some (micF, relF) ∧
      computeMinInitCons exampleChain relF 10 = some micF ∧
      ∀ s, s < exampleChain.numStates →
        (vget [ExtendedInteger.fin 2, ExtendedInteger.fin 0] s =
          if relF s then ExtendedInteger.fin 0
          else if (ExtendedInteger.fin 3).lt (vget micF s) then
            ExtendedInteger.infinity
          else vget micF s) ∧
        ((∃ v : Int,
            vget [ExtendedInteger.fin 2, ExtendedInteger.fin 0] s =
              .fin v ∧ 0 ≤ v ∧ v ≤ (3 : Int)) ∨
          vget [ExtendedInteger.fin 2, ExtendedInteger.fin 0] s =
            ExtendedInteger.infinity) :=
  computeSafe_spec exampleChain 3 10 10
    [ExtendedInteger.fin 2, ExtendedInteger.fin 0]
    exampleChain_wf (by decide)

/-- C4: on a well-formed CMDP the SafePR vector returned by
`computeSafePr` agrees with the Safe vector of `computeSafe` at every
target state: the value iteration never changes the entries of target
states. -/
theorem safePr_eq_safe_on_target (M : Cmdp)
    (capacity micFuel relFuel prFuel : Nat) (safe : List ExtendedInteger)
    (pr : List ExtendedInteger × CounterSelector) (hwf : Wf M)
    (hsafe : computeSafe M capacity micFuel relFuel = some safe)
    (hpr : computeSafePr M capacity micFuel relFuel prFuel = some pr) :
    ∀ s, s < M.numStates → M.target s = true →
      vget pr.1 s = vget safe s := by
  obtain ⟨micF, relF, hloop, hout⟩ := computeSafe_some hsafe
  obtain ⟨safe2, j, hsafe2, hpr1⟩ := computeSafePr_fst_isIterK hpr
  rw [hsafe] at hsafe2
  have hsafe_eq : safe2 = safe := (Option.some_inj.mp hsafe2).symm
  rw [hsafe_eq] at hpr1
  intro s hs ht
  rw [hpr1, hout]
  exact sprIterK_target hwf hloop j s hs ht

/-- Witness for C4 at the two-state chain (state 1 is the target). -/
theorem safePr_eq_safe_on_target_witness :
    vget ([ExtendedInteger.fin 2, ExtendedInteger.fin 0],
        ([[-1, -1, 0, -1], [0, -1, -1, -1]] : CounterSelector)).1 1 =
      vget [ExtendedInteger.fin 2, ExtendedInteger.fin 0] 1 :=
  safePr_eq_safe_on_target exampleChain 3 10 10 10
    [ExtendedInteger.fin 2, ExtendedInteger.fin 0]
    ([ExtendedInteger.fin 2, ExtendedInteger.fin 0],
      [[-1, -1, 0, -1], [0, -1, -1, -1]])
    exampleChain_wf (by decide) (by decide) 1 (by decide) (by decide)


/-- C5: the product MDP built from a counter selector has
n*(C+1)+1 states, pair (s, l) encoded as s*(C+1)+l and sink n*(C+1); from
(s, l) the next level is (reload(s) ? C : l) minus the cost of the action
the selector chooses; a negative next level yields a single edge to the
sink with probability 1, otherwise one edge to (t, l') per
positive-probability successor (t, p); the sink has a single self-loop;
(s, l) is labelled target iff s is, and the sink is not labelled. -/
theorem product_mdp_spec (cs : CounterSelector) (M : Cmdp) (capacity : Nat) :
    (getTransitionMatrixRows cs M capacity).length =
      M.numStates * (capacity + 1) + 1 ∧
    (getStateLabelling M capacity).length =
      M.numStates * (capacity + 1) + 1 ∧
    (∀ s l, s < M.numStates → l ≤ capacity →
      (getTransitionMatrixRows cs M capacity).getD
          (s * (capacity + 1) + l) [] =
        (if ((if M.reload s then (capacity : Int) else (l : Int)) -
              M.cost s (getNextAction cs s l)) < 0 then
          [(M.numStates * (capacity + 1), (1 : Rat))]
        else
          (M.row s (getNextAction cs s l)).filterMap
            (fun entry =>
              if (0 : Rat) < entry.2 then
                some (entry.1 * (capacity + 1) +
                  ((if M.reload s then (capacity : Int) else (l : Int)) -
                    M.cost s (getNextAction cs s l)).toNat, entry.2)
              else none)) ∧
      (getStateLabelling M capacity).getD (s * (capacity + 1) + l) false =
        M.target s) ∧
    (getTransitionMatrixRows cs M capacity).getD
        (M.numStates * (capacity + 1)) [] =
      [(M.numStates * (capacity + 1), (1 : Rat))] ∧
    (getStateLabelling M capacity).getD
      (M.numStates * (capacity + 1)) false = false := by
  refine ⟨length_getTransitionMatrixRows cs M capacity,
    getStateLabelling_length M capacity, ?_, ?_,
    getStateLabelling_sink M capacity⟩
  · intro s l hs hl
    refine ⟨?_, getStateLabelling_getD M capacity hs hl⟩
    rw [getTransitionMatrixRows_getD cs M capacity hs hl]
    unfold prodRowFor
    by_cases hneg : ((if M.reload s then (capacity : Int) else (l : Int)) -
        M.cost s (getNextAction cs s l)) < 0
    · rw [if_pos hneg, if_pos hneg, getStateWithZeroResource_toNat]
    · rw [if_neg hneg, if_neg hneg]
      apply List.filterMap_congr
      intro entry hmem
      by_cases hp : (0 : Rat) < entry.2
      · rw [if_pos hp, if_pos hp]
        have hx : (0 : Int) ≤
            ((if M.reload s then (capacity : Int) else (l : Int)) -
              M.cost s (getNextAction cs s l)) := not_lt.mp hneg
        have hrw : ((if M.reload s then (capacity : Int) else (l : Int)) -
            M.cost s (getNextAction cs s l)) =
            ((((if M.reload s then (capacity : Int) else (l : Int)) -
              M.cost s (getNextAction cs s l)).toNat : Nat) : Int) :=
          (Int.toNat_of_nonneg hx).symm
        rw [hrw, enc_toNat, Int.toNat_natCast]
      · rw [if_neg hp, if_neg hp]
  · rw [getTransitionMatrixRows_sink, getStateWithZeroResource_toNat]


end Storm
